import Mathlib

/-!
# Verification of the OpenReliability `Document` model

A shallow embedding of the core of `src/veusz/document/doc.py` (the
`Document` class: change tracking, update suspension, operation history,
dataset store, serialization ordering, path resolution and tree walking)
together with the plugin-import boundary of
`src/veusz/dataimport/defn_plugin.py`.

Python mutable state is modelled by explicit state passing on a `Doc`
record.  A raised exception is modelled by a `Bool` success flag paired
with the state reached when the exception escapes (Python mutations that
happened before the raise persist, which the flag-pair keeps, unlike an
`Option`).  Qt signal emissions are modelled as append-only logs on the
state (`emitted` for `signalModified`, `logs` for `sigLog`).  Python
`list.append`/`list.pop()` stacks are modelled with the top of the stack
at the head of a Lean list.
-/

namespace ORModel

/-- A dataset held in the document store (`self.data` in `doc.py`).
`username` is the back-reference name written by `setData` /
`renameDataset`; `tags` is the per-dataset tag list; `linked` is the
identity of the `LinkedFile` the dataset was imported from, if any;
`dstype` tags the concrete dataset class; `payload` stands for the
numeric contents. -/
structure Dataset where
  username : String
  tags : List String
  linked : Option Nat
  dstype : String
  payload : Nat
deriving DecidableEq, Repr

/-- One primitive mutation of the document, as performed by an
`Operation`'s `do`/`undo` through the `Document` API.  `fail` models a
step that raises an exception. -/
inductive Act where
  | setDataA (name : String) (ds : Dataset)
  | deleteDataA (name : String)
  | renameA (oldname newname : String)
  | setModifiedA (b : Bool)
  | fail
deriving DecidableEq, Repr

/-- A typed result record returned by an import plugin
(`plugins.Dataset1D` etc. in `defn_plugin.py`); `unknown` stands for a
record of a kind the translation loop does not recognise. -/
inductive PluginResult where
  | ds1d (name : String)
  | ds2d (name : String)
  | dsText (name : String)
  | dsDateTime (name : String)
  | constant (name : String) (val : String)
  | funcDef (name : String) (val : String)
  | unknown
deriving DecidableEq, Repr

/-- Outcome of the external plugin call (registry lookup plus
`plugin.doImport`): either an exception with a message, or the list of
result records. -/
inductive PluginOutcome where
  | failure (msg : String)
  | success (results : List PluginResult)
deriving DecidableEq, Repr

/-- An `Operation` given to `Document.applyOperation`.  `acts` is an
ordinary operation whose `do`/`undo` are sequences of document
mutations; `importPlugin` is `OperationDataImportPlugin` from
`defn_plugin.py`, with the external plugin call abstracted by its
`PluginOutcome`. -/
inductive Op where
  | acts (doActs undoActs : List Act)
  | importPlugin (preStr sufStr : String) (linked : Bool) (outcome : PluginOutcome)
deriving DecidableEq, Repr

/-- The document state: the fields of `Document.__init__`/`wipe` that the
verified operations touch, plus the two signal logs. -/
structure Doc where
  changeset : Nat
  suspendupdates : List Nat
  modified : Bool
  data : List (String × Dataset)
  historybatch : List (List Op)
  historyundo : List Op
  historyredo : List Op
  customs : List String
  emitted : List Bool
  logs : List String
deriving DecidableEq, Repr

/-- An empty document state used for concrete runs. -/
def emptyDoc : Doc :=
  ⟨0, [], false, [], [], [], [], [], [], []⟩

/-! ## Python `dict` operations on association lists

`Doc.data` models a Python `dict` (unique keys, insertion ordered) as an
association list: lookup finds the first matching key, deletion removes
the key, and assignment replaces the value in place when the key exists
and appends otherwise. -/

/-- `d[k]` lookup returning `none` for a missing key. -/
def dlookup {α : Type} (k : String) : List (String × α) → Option α
  | [] => none
  | (k', v) :: rest => if k' = k then some v else dlookup k rest

/-- `del d[k]` (keys are unique in a Python dict, so removing every
occurrence of the key is the same as removing its single entry). -/
def ddel {α : Type} (k : String) : List (String × α) → List (String × α)
  | [] => []
  | (k', v) :: rest => if k' = k then ddel k rest else (k', v) :: ddel k rest

/-- `d[k] = v`: replace in place if present, else append. -/
def dset {α : Type} (k : String) (v : α) : List (String × α) → List (String × α)
  | [] => [(k, v)]
  | (k', v') :: rest => if k' = k then (k, v) :: rest else (k', v') :: dset k v rest

/-- Python `l[-n:]` for a nonnegative slice bound: the last `n` elements. -/
def takeLast {α : Type} (n : Nat) (l : List α) : List α :=
  l.drop (l.length - n)

/-! ## Change tracking and update suspension (`doc.py` lines 132-160, 342-353) -/

/-- `Document.setModified`: set the flag, bump the changeset, and emit
`signalModified` only when the suspend stack is empty. -/
def setModified (ismodified : Bool) (d : Doc) : Doc :=
  let d := { d with modified := ismodified, changeset := d.changeset + 1 }
  if d.suspendupdates.length = 0 then
    { d with emitted := d.emitted ++ [ismodified] }
  else
    d

/-- `Document.suspendUpdates`: push the current changeset. -/
def suspendUpdates (d : Doc) : Doc :=
  { d with suspendupdates := d.changeset :: d.suspendupdates }

/-- `Document.enableUpdates`: pop a changeset snapshot; popping an empty
stack raises (`none`).  If the stack became empty and the snapshot
differs from the current changeset, bump the changeset once more and
call `setModified()`. -/
def enableUpdates (d : Doc) : Option Doc :=
  match d.suspendupdates with
  | [] => none
  | c :: rest =>
    let d1 := { d with suspendupdates := rest }
    if rest = [] ∧ c ≠ d1.changeset then
      some (setModified true { d1 with changeset := d1.changeset + 1 })
    else
      some d1

/-- `Document.log`: emit `sigLog`. -/
def logMsg (d : Doc) (m : String) : Doc :=
  { d with logs := d.logs ++ [m] }

/-! ## Dataset store (`doc.py` lines 265-340) -/

/-- `Document.setData`: insert/overwrite, set the dataset's username
back-reference, mark modified. -/
def setData (name : String) (ds : Dataset) (d : Doc) : Doc :=
  setModified true { d with data := dset name { ds with username := name } d.data }

/-- `Document.deleteData`: remove if present and mark modified; silently
do nothing otherwise. -/
def deleteData (name : String) (d : Doc) : Doc :=
  if (dlookup name d.data).isSome then
    setModified true { d with data := ddel name d.data }
  else
    d

/-- `Document.renameDataset`: `self.data[oldname]` raises `KeyError`
(flag `false`) when absent; otherwise delete the old key, store the
dataset under the new key and update its username. -/
def renameDataset (oldname newname : String) (d : Doc) : Doc × Bool :=
  match dlookup oldname d.data with
  | none => (d, false)
  | some ds =>
    let data1 := ddel oldname d.data
    let data2 := dset newname { ds with username := newname } data1
    (setModified true { d with data := data2 }, true)

/-! ## Running operation bodies -/

/-- Run one primitive mutation; the flag is `false` when it raises. -/
def runAct (a : Act) (d : Doc) : Doc × Bool :=
  match a with
  | .setDataA name ds => (setData name ds d, true)
  | .deleteDataA name => (deleteData name d, true)
  | .renameA o n => renameDataset o n d
  | .setModifiedA b => (setModified b d, true)
  | .fail => (d, false)

/-- Run a sequence of mutations, stopping at the first raise but keeping
the state reached so far. -/
def runActs (as : List Act) (d : Doc) : Doc × Bool :=
  match as with
  | [] => (d, true)
  | a :: rest =>
    let r := runAct a d
    if r.2 then runActs rest r.1 else (r.1, false)

/-! ## Plugin import translation (`defn_plugin.py` lines 80-142) -/

/-- The mutable result slots of `OperationDataImportBase`:
`outdatasets` (name → dataset), `outcustoms` (lists like
`['constant', name, val]`) and `outnames`. -/
structure ImportState where
  outdatasets : List (String × Dataset)
  outcustoms : List (List String)
  outnames : List String
deriving DecidableEq, Repr

/-- The empty result slots of a fresh operation. -/
def emptyImportState : ImportState := ⟨[], [], []⟩

/-- Build the concrete dataset for one recognised plugin record
(`document.Dataset(...)` etc.); the `LinkedFilePlugin` instance shared
by the run is modelled as link identity `0`. -/
def pluginDataset (dstype nm : String) (linked : Bool) : Dataset :=
  ⟨nm, [], if linked then some 0 else none, dstype, 0⟩

/-- The result-translation loop of `OperationDataImportPlugin.doImport`:
datasets are stored under `prefix + name + suffix`, constants/functions
are appended to `outcustoms`, and an unrecognised record raises
`RuntimeError("Invalid data set in plugin results")`, keeping whatever
was accumulated before it. -/
def translateResults (preStr sufStr : String) (linked : Bool) :
    List PluginResult → ImportState → ImportState × Option String
  | [], st => (st, none)
  | r :: rest, st =>
    match r with
    | .ds1d n =>
      let ds := pluginDataset "1d" n linked
      translateResults preStr sufStr linked rest
        { st with outdatasets := dset (preStr ++ n ++ sufStr) ds st.outdatasets }
    | .ds2d n =>
      let ds := pluginDataset "2d" n linked
      translateResults preStr sufStr linked rest
        { st with outdatasets := dset (preStr ++ n ++ sufStr) ds st.outdatasets }
    | .dsText n =>
      let ds := pluginDataset "text" n linked
      translateResults preStr sufStr linked rest
        { st with outdatasets := dset (preStr ++ n ++ sufStr) ds st.outdatasets }
    | .dsDateTime n =>
      let ds := pluginDataset "datetime" n linked
      translateResults preStr sufStr linked rest
        { st with outdatasets := dset (preStr ++ n ++ sufStr) ds st.outdatasets }
    | .constant n v =>
      translateResults preStr sufStr linked rest
        { st with outcustoms := st.outcustoms ++ [["constant", n, v]] }
    | .funcDef n v =>
      translateResults preStr sufStr linked rest
        { st with outcustoms := st.outcustoms ++ [["function", n, v]] }
    | .unknown => (st, some "Invalid data set in plugin results")

/-- `doImport` for the plugin operation: the external plugin call either
raises (nothing accumulated) or yields records fed to the translation
loop. -/
def importResults (preStr sufStr : String) (linked : Bool)
    (outcome : PluginOutcome) : ImportState × Option String :=
  match outcome with
  | .failure msg => (emptyImportState, some msg)
  | .success rs => translateResults preStr sufStr linked rs emptyImportState

/-- Modelled from the spec: `base.OperationDataImportBase.do` (not under
`src/`) runs `doImport` and then commits `outdatasets` into the document
via `setData`; when `doImport` raises, nothing is committed and the
exception propagates.  Committing is expressed as running the
corresponding `setData` mutations. -/
def importCommitActs (st : ImportState) : List Act :=
  st.outdatasets.map (fun p => Act.setDataA p.1 p.2)

/-- Modelled from the spec: after a successful `do`, the operation's
`outnames` holds the imported dataset names; after a failure it keeps
its initial empty value. -/
def importFinalState (preStr sufStr : String) (linked : Bool)
    (outcome : PluginOutcome) : ImportState :=
  let r := importResults preStr sufStr linked outcome
  match r.2 with
  | none => { r.1 with outnames := r.1.outdatasets.map (fun p => p.1) }
  | some _ => r.1

/-- `operation.do(self)`: run the operation body on the document. -/
def opDo (op : Op) (d : Doc) : Doc × Bool :=
  match op with
  | .acts doActs _ => runActs doActs d
  | .importPlugin preStr sufStr linked outcome =>
    match importResults preStr sufStr linked outcome with
    | (st, none) => runActs (importCommitActs st) d
    | (_, some _) => (d, false)

/-- `operation.undo(self)`.  The undo of a plugin import lives in the
external `base.OperationDataImportBase`; no claim exercises it, and it
is modelled as a no-op. -/
def opUndo (op : Op) (d : Doc) : Doc × Bool :=
  match op with
  | .acts _ undoActs => runActs undoActs d
  | .importPlugin _ _ _ _ => (d, true)

/-! ## Operation history (`doc.py` lines 162-220) -/

/-- The history-recording step of `applyOperation`: append to the
innermost open batch (`historybatch[-1].addOperation(operation)`) when a
batch is open, else push onto the undo stack truncated to
`historyundo[-9:] + [operation]`. -/
def recordOp (op : Op) (d : Doc) : Doc :=
  match d.historybatch with
  | b :: bs => { d with historybatch := (b ++ [op]) :: bs }
  | [] => { d with historyundo := takeLast 9 d.historyundo ++ [op] }

/-- `Document.applyOperation`: suspend updates, run `do`, bump the
changeset, re-enable updates (also on the exception path, as the
`with` block guarantees), then record the operation and clear the redo
stack. -/
def applyOperation (op : Op) (d : Doc) : Doc × Bool :=
  let r := opDo op (suspendUpdates d)
  if r.2 then
    let d2 := { r.1 with changeset := r.1.changeset + 1 }
    match enableUpdates d2 with
    | none => (d2, false)
    | some d3 => ({ recordOp op d3 with historyredo := [] }, true)
  else
    match enableUpdates r.1 with
    | none => (r.1, false)
    | some d3 => (d3, false)

/-- `Document.undoOperation`: pop the most recent operation (raising on
an empty undo stack), run its `undo` inside a suspension scope, bump the
changeset, and push it on the redo stack. -/
def undoOperation (d : Doc) : Doc × Bool :=
  match d.historyundo.getLast? with
  | none => (d, false)
  | some op =>
    let d0 := { d with historyundo := d.historyundo.dropLast }
    let d1 := suspendUpdates d0
    let r := opUndo op d1
    if r.2 then
      let d2 := { r.1 with changeset := r.1.changeset + 1 }
      match enableUpdates d2 with
      | none => (d2, false)
      | some d3 => ({ d3 with historyredo := d3.historyredo ++ [op] }, true)
    else
      match enableUpdates r.1 with
      | none => (r.1, false)
      | some d3 => (d3, false)

/-- `Document.redoOperation`: pop from the redo stack (raising when
empty) and re-apply through `applyOperation`. -/
def redoOperation (d : Doc) : Doc × Bool :=
  match d.historyredo.getLast? with
  | none => (d, false)
  | some op =>
    applyOperation op { d with historyredo := d.historyredo.dropLast }

/-- `Document.batchHistory`: push an accumulator, or pop one when given
`None` (raising on an empty batch stack). -/
def batchHistory (b : Option (List Op)) (d : Doc) : Doc × Bool :=
  match b with
  | some batch => ({ d with historybatch := batch :: d.historybatch }, true)
  | none =>
    match d.historybatch with
    | [] => (d, false)
    | _ :: rest => ({ d with historybatch := rest }, true)

/-- Apply a list of operations in order, stopping at the first failure. -/
def applyList (ops : List Op) (d : Doc) : Doc × Bool :=
  match ops with
  | [] => (d, true)
  | op :: rest =>
    let r := applyOperation op d
    if r.2 then applyList rest r.1 else (r.1, false)

/-- Call `undoOperation` `n` times, stopping at the first failure. -/
def undoTimes (n : Nat) (d : Doc) : Doc × Bool :=
  match n with
  | 0 => (d, true)
  | n + 1 =>
    let r := undoOperation d
    if r.2 then undoTimes n r.1 else (r.1, false)

/-- A trivial operation whose `do` and `undo` mutate nothing. -/
def trivOp : Op := .acts [] []


/-! ## Document mutations as events (for the suspension claims) -/

/-- A top-level document mutation, as named by the suspension claim. -/
inductive Mut where
  | setDataM (name : String) (ds : Dataset)
  | deleteDataM (name : String)
  | renameM (oldname newname : String)
  | applyM (op : Op)
  | undoM
  | setModifiedM (b : Bool)
deriving DecidableEq, Repr

/-- An event acting on the document: entering or leaving a suspension
scope, or one of the mutations. -/
inductive Ev where
  | suspend
  | enable
  | mutE (m : Mut)
deriving DecidableEq, Repr

/-- Run one event; the flag is `false` when it raises. -/
def runEv (e : Ev) (d : Doc) : Doc × Bool :=
  match e with
  | .suspend => (suspendUpdates d, true)
  | .enable =>
    match enableUpdates d with
    | none => (d, false)
    | some d' => (d', true)
  | .mutE (.setDataM name ds) => (setData name ds d, true)
  | .mutE (.deleteDataM name) => (deleteData name d, true)
  | .mutE (.renameM o n) => renameDataset o n d
  | .mutE (.applyM op) => applyOperation op d
  | .mutE .undoM => undoOperation d
  | .mutE (.setModifiedM b) => (setModified b d, true)

/-- Run a sequence of events, stopping at the first raise but keeping
the state reached so far. -/
def runEvs (es : List Ev) (d : Doc) : Doc × Bool :=
  match es with
  | [] => (d, true)
  | e :: rest =>
    let r := runEv e d
    if r.2 then runEvs rest r.1 else (r.1, false)

/-- Well-nestedness of suspension scopes relative to a surrounding
depth `k`: every `enable` closes a scope opened inside the sequence or
one of the `k` surrounding ones. -/
def depthOkB : List Ev → Nat → Bool
  | [], _ => true
  | .suspend :: rest, k => depthOkB rest (k + 1)
  | .enable :: rest, k => decide (0 < k) && depthOkB rest (k - 1)
  | .mutE _ :: rest, k => depthOkB rest k

/-- Net suspension depth after a sequence of events, starting from `k`. -/
def finalDepth : List Ev → Nat → Nat
  | [], k => k
  | .suspend :: rest, k => finalDepth rest (k + 1)
  | .enable :: rest, k => finalDepth rest (k - 1)
  | .mutE _ :: rest, k => finalDepth rest k

/-! ## The plugin import boundary (`defn_plugin.py` lines 144-169) -/

/-- A stand-in for `''.join(traceback.format_exc())`: the full traceback
text of the exception whose message is `e`. -/
def tracebackOf (e : String) : String :=
  "Traceback (most recent call last): " ++ e

/-- `ImportFilePlugin`: build the import operation, apply it through
`Document.applyOperation` inside `try`/`except`, on any exception log
the error line and the full traceback instead of propagating, and in
all cases return the operation's `outnames` and `outcustoms`. -/
def importFilePlugin (plugin preStr sufStr : String) (linked : Bool)
    (outcome : PluginOutcome) (d : Doc) :
    Doc × List String × List (List String) :=
  let op := Op.importPlugin preStr sufStr linked outcome
  let st := importFinalState preStr sufStr linked outcome
  let r := applyOperation op d
  if r.2 then
    (r.1, st.outnames, st.outcustoms)
  else
    let msg :=
      match (importResults preStr sufStr linked outcome).2 with
      | some m => m
      | none => ""
    (logMsg (logMsg r.1 ("Error in plugin " ++ plugin)) (tracebackOf msg),
     st.outnames, st.outcustoms)

/-! ## Concrete sample states for witnesses -/

/-- A sample dataset. -/
def sampleDS : Dataset := ⟨"x", ["run1"], none, "1d", 1⟩

/-- A document sitting inside one suspension scope. -/
def docSusp : Doc := { emptyDoc with suspendupdates := [0] }

/-- A document inside one suspension scope whose changeset moved after
the snapshot was pushed. -/
def docC3 : Doc := { emptyDoc with changeset := 1, suspendupdates := [0] }

/-- A document with one open (empty) history batch. -/
def docBatch : Doc := { emptyDoc with historybatch := [[]] }

/-- A sample event sequence: one mutation inside the scope. -/
def evSample : List Ev := [Ev.mutE (Mut.setDataM "x" sampleDS)]

/-- Two distinguishable sample datasets. -/
def dsA : Dataset := ⟨"a", ["t1"], none, "1d", 1⟩

/-- See `dsA`. -/
def dsB : Dataset := ⟨"b", ["t2"], none, "1d", 2⟩

/-- A document whose store holds datasets under both names. -/
def docAB : Doc := { emptyDoc with data := [("a", dsA), ("b", dsB)] }

/-- A document whose store holds one dataset under name `a`. -/
def docA : Doc := { emptyDoc with data := [("a", dsA)] }

/-! ## Text save serialization (`doc.py` lines 424-485) -/

/-- One textual statement category written by `saveToFile`, in source
order: header comment, `AddImportPath`, custom symbol definition,
linked-dataset declaration, per-dataset data block, `TagDatasets`
statement, widget-tree reconstruction script. -/
inductive Stmt where
  | header
  | importPathD (dir : String)
  | customDef (c : String)
  | linkDecl (lf : Nat)
  | dataBlock (name : String)
  | tagAssign (tag : String) (names : List String)
  | treeScript
deriving DecidableEq, Repr

/-- Position of each statement category in the fixed save order. -/
def rank : Stmt → Nat
  | .header => 0
  | .importPathD _ => 1
  | .customDef _ => 2
  | .linkDecl _ => 3
  | .dataBlock _ => 4
  | .tagAssign _ _ => 5
  | .treeScript => 6

/-- The save order on statements: category ranks never decrease. -/
def rankLE (a b : Stmt) : Prop := rank a ≤ rank b

/-- Statement-category recognisers. -/
def isImportPath : Stmt → Bool
  | .importPathD _ => true
  | _ => false

/-- See `isImportPath`. -/
def isLinkDecl : Stmt → Bool
  | .linkDecl _ => true
  | _ => false

/-- See `isImportPath`. -/
def isDataBlock : Stmt → Bool
  | .dataBlock _ => true
  | _ => false

/-- See `isImportPath`. -/
def isTagAssign : Stmt → Bool
  | .tagAssign _ _ => true
  | _ => false

/-- `sorted(self.data.items())`: dict keys are unique, so Python's tuple
comparison only ever compares the keys; Python's sort and insertion sort
are both stable, hence agree. -/
def sortedItems (l : List (String × Dataset)) : List (String × Dataset) :=
  List.insertionSort (fun p q => p.1 ≤ q.1) l

/-- Modelled from the spec: `dataset.saveLinksToSavedDoc` (in the
external `datasets` package) writes the declaration of each dataset's
`LinkedFile` once, deduplicated through the `savedlinks` mapping. -/
def linkedDecls : List (String × Dataset) → List Nat → List Stmt
  | [], _ => []
  | (_, ds) :: rest, seen =>
    match ds.linked with
    | some lf =>
      if lf ∈ seen then linkedDecls rest seen
      else Stmt.linkDecl lf :: linkedDecls rest (lf :: seen)
    | none => linkedDecls rest seen

/-- `Document.saveDatasetTags`: group dataset names by tag over the
sorted items (`tags` models the per-dataset tag set, so it is read as
duplicate-free), then write one `TagDatasets` statement per tag in
sorted order. -/
def tagStmtsOf (items : List (String × Dataset)) : List Stmt :=
  let allTags := (List.insertionSort (fun a b : String => a ≤ b)
    (items.flatMap (fun p => p.2.tags))).dedup
  allTags.map (fun t =>
    Stmt.tagAssign t (items.filterMap (fun p => if t ∈ p.2.tags then some p.1 else none)))

/-- The `AddImportPath` directive, written only when the output file has
a known name (`getattr(fileobj, 'name', False)`). -/
def importPathStmts (outName : Option String) : List Stmt :=
  match outName with
  | some n => [Stmt.importPathD n]
  | none => []

/-- `Document.saveToFile`: the sequence of statement categories in the
order they are written, and the document state on return (the final
`self.setModified(False)`).  The custom-definitions writer
(`self.evaluate.saveCustomDefinitions`), the per-dataset writers and the
widget-tree `getSaveText` live in external collaborators and are
modelled from the spec as each writing statements of its own category. -/
def saveToFile (d : Doc) (outName : Option String) : List Stmt × Doc :=
  let items := sortedItems d.data
  let stmts :=
    [Stmt.header]
    ++ importPathStmts outName
    ++ d.customs.map Stmt.customDef
    ++ linkedDecls items []
    ++ items.map (fun p => Stmt.dataBlock p.1)
    ++ tagStmtsOf items
    ++ [Stmt.treeScript]
  (stmts, setModified false d)

/-! ## The widget/settings tree (`doc.py` lines 236-259 and 690-723)

Widgets have a `name`, a list of child widgets (`children`) and a
`Settings` subtree (`settings`); a `Settings` group has a `name` and an
ordered `setdict` of named entries, each a nested group or a leaf
`Setting`.  The three Python classes become three mutually inductive
types; the dynamic `nodetype` dispatch of `walkNodes` matches the
Python code, which also checks the class at run time. -/

mutual
inductive VNode where
  | widget (name : String) (children : VList) (settings : VNode)
  | settingsGrp (name : String) (setdict : SList)
  | setting (name : String)
inductive VList where
  | nil
  | cons (w : VNode) (rest : VList)
inductive SList where
  | nil
  | cons (key : String) (sn : VNode) (rest : SList)
end

/-- The `nodetype` attribute. -/
inductive NodeKind where
  | widget
  | settings
  | setting
deriving DecidableEq, Repr

/-- `node.nodetype`. -/
def kindOf : VNode → NodeKind
  | .widget _ _ _ => .widget
  | .settingsGrp _ _ => .settings
  | .setting _ => .setting

/-- `node.name`. -/
def nameOf : VNode → String
  | .widget n _ _ => n
  | .settingsGrp n _ => n
  | .setting n => n

mutual
/-- Structural size of a node, used as the recursion fuel of the
tree-walking functions (the Python recursion terminates on finite
trees; any fuel of at least this size reproduces it exactly). -/
def mN : VNode → Nat
  | .widget _ cs st => 1 + mL cs + mN st
  | .settingsGrp _ sl => 1 + mS sl
  | .setting _ => 1
def mL : VList → Nat
  | .nil => 0
  | .cons w rest => 1 + mN w + mL rest
def mS : SList → Nat
  | .nil => 0
  | .cons _ sn rest => 1 + mN sn + mS rest
end

/-- Number of elements of a `VList` (`len(widget.children)`). -/
def lenL : VList → Nat
  | .nil => 0
  | .cons _ rest => lenL rest + 1

mutual
/-- Number of nodes in a tree (for the exactly-once claim). -/
def countN : VNode → Nat
  | .widget _ cs st => 1 + countL cs + countN st
  | .settingsGrp _ sl => 1 + countS sl
  | .setting _ => 1
def countL : VList → Nat
  | .nil => 0
  | .cons w rest => countN w + countL rest
def countS : SList → Nat
  | .nil => 0
  | .cons _ sn rest => countN sn + countS rest
end

/-- `setdict.items()` as a key/node list. -/
def toPairs : SList → List (String × VNode)
  | .nil => []
  | .cons k sn rest => (k, sn) :: toPairs rest

/-- `sorted(root.setdict.items())`: dict keys are unique, so Python's
tuple comparison only ever compares the keys; Python's sort and
insertion sort are both stable, hence agree. -/
def sortPairs (l : List (String × VNode)) : List (String × VNode) :=
  List.insertionSort (fun a b => a.1 ≤ b.1) l

/-- Fuel bound of a key/node list (see `mN`). -/
def mP (l : List (String × VNode)) : Nat :=
  (l.map (fun p => 1 + mN p.2)).sum

/-- Node count of a key/node list (see `countN`). -/
def countP (l : List (String × VNode)) : Nat :=
  (l.map (fun p => countN p.2)).sum

mutual
/-- `Document.walkNodes` (fuelled; see `mN`).  Visit the node when its
kind is requested; for a widget, collapse the root path `/` to the empty
string, walk all children (each at `path + '/' + name`), then walk the
widget's own settings subtree at the widget's path; for a settings
group, walk the `setdict` entries sorted by key, each at
`path + '/' + entry.name`. -/
def walkNodesF : Nat → List NodeKind → VNode → String → List (String × VNode)
  | 0, _, _, _ => []
  | fuel + 1, kinds, t, path =>
    (if kindOf t ∈ kinds then [(path, t)] else [])
    ++ match t with
       | .widget _ cs st =>
         let q := if path = "/" then "" else path
         walkChildrenF fuel kinds cs q ++ walkNodesF fuel kinds st q
       | .settingsGrp _ sl => walkDictF fuel kinds (sortPairs (toPairs sl)) path
       | .setting _ => []
def walkChildrenF : Nat → List NodeKind → VList → String → List (String × VNode)
  | 0, _, _, _ => []
  | _ + 1, _, .nil, _ => []
  | fuel + 1, kinds, .cons w rest, q =>
    walkNodesF fuel kinds w (q ++ "/" ++ nameOf w) ++ walkChildrenF fuel kinds rest q
def walkDictF : Nat → List NodeKind → List (String × VNode) → String → List (String × VNode)
  | 0, _, _, _ => []
  | _ + 1, _, [], _ => []
  | fuel + 1, kinds, p :: rest, path =>
    walkNodesF fuel kinds p.2 (path ++ "/" ++ nameOf p.2) ++ walkDictF fuel kinds rest path
end

/-- `Document.walkNodes` on a tree, with sufficient fuel. -/
def walkNodes (kinds : List NodeKind) (t : VNode) (path : String) :
    List (String × VNode) :=
  walkNodesF (mN t) kinds t path

mutual
/-- The reference traversal: like `walkNodes` but visiting every node
and recording, besides the path, the node's tree position — the widget
at position `pos` places child `i` at `pos ++ [i]` and its settings
subtree at `pos ++ [number of children]`; a settings group places its
(sorted) entry `i` at `pos ++ [i]`. -/
def walkAllF : Nat → VNode → String → List Nat → List (List Nat × String × VNode)
  | 0, _, _, _ => []
  | fuel + 1, t, path, pos =>
    (pos, path, t) ::
    match t with
    | .widget _ cs st =>
      let q := if path = "/" then "" else path
      walkAllLF fuel cs q pos 0 ++ walkAllF fuel st q (pos ++ [lenL cs])
    | .settingsGrp _ sl => walkAllDF fuel (sortPairs (toPairs sl)) path pos 0
    | .setting _ => []
def walkAllLF : Nat → VList → String → List Nat → Nat → List (List Nat × String × VNode)
  | 0, _, _, _, _ => []
  | _ + 1, .nil, _, _, _ => []
  | fuel + 1, .cons w rest, q, pos, i =>
    walkAllF fuel w (q ++ "/" ++ nameOf w) (pos ++ [i])
      ++ walkAllLF fuel rest q pos (i + 1)
def walkAllDF : Nat → List (String × VNode) → String → List Nat → Nat →
    List (List Nat × String × VNode)
  | 0, _, _, _, _ => []
  | _ + 1, [], _, _, _ => []
  | fuel + 1, p :: rest, path, pos, i =>
    walkAllF fuel p.2 (path ++ "/" ++ nameOf p.2) (pos ++ [i])
      ++ walkAllDF fuel rest path pos (i + 1)
end

/-- The reference traversal on a tree, with sufficient fuel. -/
def walkAll (t : VNode) (path : String) (pos : List Nat) :
    List (List Nat × String × VNode) :=
  walkAllF (mN t) t path pos

/-- Restrict reference-traversal visits to the requested kinds,
dropping the positions. -/
def kindFilter (kinds : List NodeKind) (vs : List (List Nat × String × VNode)) :
    List (String × VNode) :=
  vs.filterMap (fun v => if kindOf v.2.2 ∈ kinds then some (v.2.1, v.2.2) else none)

/-- Strict lexicographic order on visit positions. -/
def posLt (a b : List Nat × String × VNode) : Prop :=
  List.Lex (· < ·) a.1 b.1

/-- A name usable as a path segment: non-empty and not starting with a
slash. -/
def goodName (s : String) : Bool :=
  match s.data with
  | [] => false
  | c :: _ => c != '/'

mutual
/-- All names in a tree are usable as path segments. -/
def goodNames : VNode → Bool
  | .widget n cs st => goodName n && goodNamesL cs && goodNames st
  | .settingsGrp n sl => goodName n && goodNamesS sl
  | .setting n => goodName n
def goodNamesL : VList → Bool
  | .nil => true
  | .cons w rest => goodNames w && goodNamesL rest
def goodNamesS : SList → Bool
  | .nil => true
  | .cons _ sn rest => goodNames sn && goodNamesS rest
end

/-- A path string that does not begin with a double slash. -/
def dslashFree (p : String) : Bool :=
  match p.data with
  | c1 :: c2 :: _ => !(c1 == '/' && c2 == '/')
  | _ => true

/-! ## Setting-path resolution (`doc.py` lines 236-259) -/

/-- Outcome classes of `resolveFullSettingPath`: the `IndexError` from
`parts[0]` on an empty list, or the failing `assert`. -/
inductive RErr where
  | indexErr
  | assertErr
deriving DecidableEq, Repr

/-- Python's `path.split('/')` on the character list (splitting on every
slash, keeping empty fields). -/
def splitSlashChars : List Char → List (List Char)
  | [] => [[]]
  | c :: rest =>
    match splitSlashChars rest with
    | [] => [[c]]
    | w :: ws => if c = '/' then [] :: (w :: ws) else (c :: w) :: ws

/-- Python's `path.split('/')`. -/
def pySplitSlash (s : String) : List String :=
  (splitSlashChars s.data).map (fun l => String.mk l)

/-- `widget.children`; non-widget nodes have no `children` attribute in
Python, so this case is unreachable inside a proper widget tree. -/
def childrenOf : VNode → VList
  | .widget _ cs _ => cs
  | _ => .nil

/-- `widget.settings`; non-widget nodes have no `settings` attribute in
Python, so this case is unreachable inside a proper widget tree. -/
def settingsOf : VNode → VNode
  | .widget _ _ st => st
  | t => t

/-- The `for child in widget.children: if p == child.name` search. -/
def findChildL : VList → String → Option VNode
  | .nil, _ => none
  | .cons w rest, p => if p = nameOf w then some w else findChildL rest p

/-- The widget-descent loop of `resolveFullSettingPath`: while parts
remain, follow the child whose name matches the first part; stop at the
first part that names no child. -/
def descendW : VNode → List String → VNode × List String
  | w, [] => (w, [])
  | w, p :: rest =>
    match findChildL (childrenOf w) p with
    | some c => descendW c rest
    | none => (w, p :: rest)

/-- `parts[0] in s.setdict` / `s.get(parts[0])`. -/
def lookupS : SList → String → Option VNode
  | .nil, _ => none
  | .cons k sn rest, p => if k = p then some sn else lookupS rest p

/-- The settings loop of `resolveFullSettingPath` plus the final
assertion: while `s` is a `Settings`, Python evaluates `parts[0]` —
raising `IndexError` when the parts ran out — and descends while the
part is in `setdict`; when the loop exits, `assert isinstance(s,
Setting)` fails unless `s` is a leaf setting (remaining parts are
silently ignored in that case, as in the source). -/
def descendS : VNode → List String → Except RErr VNode
  | .settingsGrp _ _, [] => .error .indexErr
  | .settingsGrp _ sl, p :: rest =>
    match lookupS sl p with
    | some sn => descendS sn rest
    | none => .error .assertErr
  | .setting n, _ => .ok (.setting n)
  | .widget _ _ _, _ => .error .assertErr

/-- `Document.resolveFullSettingPath`. -/
def resolveFullSettingPath (t : VNode) (path : String) : Except RErr VNode :=
  let parts := (pySplitSlash path).filter (fun x => x ≠ "")
  let r := descendW t parts
  descendS (settingsOf r.1) r.2

mutual
/-- A proper widget tree: every child is a widget and every `settings`
attribute is a settings group whose entries are settings nodes. -/
def isWTree : VNode → Bool
  | .widget _ cs st => isWForest cs && isSGroupTree st
  | .settingsGrp _ _ => false
  | .setting _ => false
def isWForest : VList → Bool
  | .nil => true
  | .cons w rest => isWTree w && isWForest rest
def isSGroupTree : VNode → Bool
  | .settingsGrp _ sl => isSItems sl
  | _ => false
def isSItems : SList → Bool
  | .nil => true
  | .cons _ sn rest => isSNode sn && isSItems rest
def isSNode : VNode → Bool
  | .setting _ => true
  | .settingsGrp _ sl => isSItems sl
  | .widget _ _ _ => false
end

/-- A small concrete widget tree: a root with one child widget (with an
empty settings group) and a root settings group with one leaf. -/
def sampleTree : VNode :=
  .widget "document"
    (.cons (.widget "page1" .nil (.settingsGrp "s" .nil)) .nil)
    (.settingsGrp "StyleSheet" (.cons "width" (.setting "width") .nil))

/-! ## Frame lemmas: which fields each primitive leaves untouched -/

/-- `setModified` never touches the history stacks or the suspend stack,
and emits nothing while the suspend stack is non-empty. -/
theorem setModified_frame (b : Bool) (x : Doc) :
    (setModified b x).historybatch = x.historybatch ∧
    (setModified b x).historyundo = x.historyundo ∧
    (setModified b x).historyredo = x.historyredo ∧
    (setModified b x).suspendupdates = x.suspendupdates ∧
    (setModified b x).data = x.data ∧
    (setModified b x).logs = x.logs ∧
    (x.suspendupdates ≠ [] → (setModified b x).emitted = x.emitted) := by
  simp only [setModified]
  split
  next h =>
    refine ⟨rfl, rfl, rfl, rfl, rfl, rfl, fun hne => ?_⟩
    exact absurd (List.length_eq_zero.mp h) hne
  next h => exact ⟨rfl, rfl, rfl, rfl, rfl, rfl, fun _ => rfl⟩

/-- A single mutation never touches the history stacks or the suspend
stack, and emits nothing while the suspend stack is non-empty. -/
theorem runAct_frame (a : Act) (d : Doc) :
    (runAct a d).1.historybatch = d.historybatch ∧
    (runAct a d).1.historyundo = d.historyundo ∧
    (runAct a d).1.historyredo = d.historyredo ∧
    (runAct a d).1.suspendupdates = d.suspendupdates ∧
    (d.suspendupdates ≠ [] → (runAct a d).1.emitted = d.emitted) := by
  cases a with
  | setDataA name ds =>
    have h := setModified_frame true { d with data := dset name { ds with username := name } d.data }
    exact ⟨h.1, h.2.1, h.2.2.1, h.2.2.2.1, h.2.2.2.2.2.2⟩
  | deleteDataA name =>
    simp only [runAct, deleteData]
    split
    · have h := setModified_frame true { d with data := ddel name d.data }
      exact ⟨h.1, h.2.1, h.2.2.1, h.2.2.2.1, h.2.2.2.2.2.2⟩
    · exact ⟨rfl, rfl, rfl, rfl, fun _ => rfl⟩
  | renameA o n =>
    simp only [runAct, renameDataset]
    cases dlookup o d.data with
    | none => exact ⟨rfl, rfl, rfl, rfl, fun _ => rfl⟩
    | some ds =>
      have h := setModified_frame true
        { d with data := dset n { ds with username := n } (ddel o d.data) }
      exact ⟨h.1, h.2.1, h.2.2.1, h.2.2.2.1, h.2.2.2.2.2.2⟩
  | setModifiedA b =>
    have h := setModified_frame b d
    exact ⟨h.1, h.2.1, h.2.2.1, h.2.2.2.1, h.2.2.2.2.2.2⟩
  | fail => exact ⟨rfl, rfl, rfl, rfl, fun _ => rfl⟩

/-- An operation body never touches the history stacks or the suspend
stack, and emits nothing while the suspend stack is non-empty. -/
theorem runActs_frame (as : List Act) (d : Doc) :
    (runActs as d).1.historybatch = d.historybatch ∧
    (runActs as d).1.historyundo = d.historyundo ∧
    (runActs as d).1.historyredo = d.historyredo ∧
    (runActs as d).1.suspendupdates = d.suspendupdates ∧
    (d.suspendupdates ≠ [] → (runActs as d).1.emitted = d.emitted) := by
  induction as generalizing d with
  | nil => exact ⟨rfl, rfl, rfl, rfl, fun _ => rfl⟩
  | cons a rest ih =>
    simp only [runActs]
    have ha := runAct_frame a d
    split
    · have hr := ih (runAct a d).1
      refine ⟨hr.1.trans ha.1, hr.2.1.trans ha.2.1, hr.2.2.1.trans ha.2.2.1,
        hr.2.2.2.1.trans ha.2.2.2.1, fun hne => ?_⟩
      have hs : (runAct a d).1.suspendupdates ≠ [] := ha.2.2.2.1 ▸ hne
      exact (hr.2.2.2.2 hs).trans (ha.2.2.2.2 hne)
    · exact ⟨ha.1, ha.2.1, ha.2.2.1, ha.2.2.2.1, ha.2.2.2.2⟩

/-- `opDo` never touches the history stacks or the suspend stack, and
emits nothing while the suspend stack is non-empty. -/
theorem opDo_frame (op : Op) (d : Doc) :
    (opDo op d).1.historybatch = d.historybatch ∧
    (opDo op d).1.historyundo = d.historyundo ∧
    (opDo op d).1.historyredo = d.historyredo ∧
    (opDo op d).1.suspendupdates = d.suspendupdates ∧
    (d.suspendupdates ≠ [] → (opDo op d).1.emitted = d.emitted) := by
  cases op with
  | acts doActs undoActs => exact runActs_frame doActs d
  | importPlugin preStr sufStr linked outcome =>
    simp only [opDo]
    cases h : importResults preStr sufStr linked outcome with
    | mk st err =>
      cases err with
      | none => exact runActs_frame (importCommitActs st) d
      | some e => exact ⟨rfl, rfl, rfl, rfl, fun _ => rfl⟩

/-- `opUndo` never touches the history stacks or the suspend stack, and
emits nothing while the suspend stack is non-empty. -/
theorem opUndo_frame (op : Op) (d : Doc) :
    (opUndo op d).1.historybatch = d.historybatch ∧
    (opUndo op d).1.historyundo = d.historyundo ∧
    (opUndo op d).1.historyredo = d.historyredo ∧
    (opUndo op d).1.suspendupdates = d.suspendupdates ∧
    (d.suspendupdates ≠ [] → (opUndo op d).1.emitted = d.emitted) := by
  cases op with
  | acts doActs undoActs => exact runActs_frame undoActs d
  | importPlugin preStr sufStr linked outcome =>
    exact ⟨rfl, rfl, rfl, rfl, fun _ => rfl⟩


/-- `recordOp` only updates the history stacks. -/
theorem recordOp_frame (op : Op) (d : Doc) :
    (recordOp op d).suspendupdates = d.suspendupdates ∧
    (recordOp op d).emitted = d.emitted ∧
    (recordOp op d).changeset = d.changeset ∧
    (recordOp op d).modified = d.modified ∧
    (recordOp op d).data = d.data ∧
    (recordOp op d).logs = d.logs := by
  unfold recordOp
  cases d.historybatch <;> exact ⟨rfl, rfl, rfl, rfl, rfl, rfl⟩

/-- With no open batch, `recordOp` pushes onto the truncated undo stack. -/
theorem recordOp_of_nil (op : Op) (d : Doc) (h : d.historybatch = []) :
    (recordOp op d).historybatch = [] ∧
    (recordOp op d).historyundo = takeLast 9 d.historyundo ++ [op] := by
  simp [recordOp, h]

/-- With an open batch, `recordOp` appends to the innermost batch and
leaves the undo stack alone. -/
theorem recordOp_of_cons (op : Op) (d : Doc) (b : List Op) (bs : List (List Op))
    (h : d.historybatch = b :: bs) :
    (recordOp op d).historybatch = (b ++ [op]) :: bs ∧
    (recordOp op d).historyundo = d.historyundo := by
  simp [recordOp, h]

/-- `enableUpdates` succeeds exactly when the suspend stack is non-empty;
it pops one entry, touches no store/history/log field, and changes
nothing else at all unless the stack became empty. -/
theorem enableUpdates_total (d : Doc) (h : d.suspendupdates ≠ []) :
    ∃ d', enableUpdates d = some d' ∧
      d'.suspendupdates = d.suspendupdates.tail ∧
      d'.historybatch = d.historybatch ∧
      d'.historyundo = d.historyundo ∧
      d'.historyredo = d.historyredo ∧
      d'.data = d.data ∧
      d'.logs = d.logs ∧
      d'.customs = d.customs ∧
      (d.suspendupdates.tail ≠ [] →
        d'.emitted = d.emitted ∧ d'.changeset = d.changeset ∧ d'.modified = d.modified) := by
  cases hs : d.suspendupdates with
  | nil => exact absurd hs h
  | cons c rest =>
    simp only [enableUpdates, hs, List.tail_cons]
    split
    next hcond =>
      rcases hcond with ⟨hrest, hc⟩
      subst hrest
      refine ⟨_, rfl, ?_⟩
      simp only [setModified]
      split <;> exact ⟨rfl, rfl, rfl, rfl, rfl, rfl, rfl, fun hne => absurd rfl hne⟩
    next hcond =>
      exact ⟨_, rfl, rfl, rfl, rfl, rfl, rfl, rfl, rfl, fun _ => ⟨rfl, rfl, rfl⟩⟩

/-- When `enableUpdates` pops to a still-non-empty stack, or pops a
snapshot equal to the current changeset, it only pops: the rest of the
document is unchanged and nothing is emitted. -/
theorem enableUpdates_noemit (d : Doc) (c : Nat) (rest : List Nat)
    (h : d.suspendupdates = c :: rest) (hq : rest ≠ [] ∨ c = d.changeset) :
    enableUpdates d = some { d with suspendupdates := rest } := by
  simp only [enableUpdates, h]
  rw [if_neg]
  intro hcond
  cases hq with
  | inl hne => exact hne hcond.1
  | inr hceq => exact hcond.2 hceq

/-- When `enableUpdates` pops the last snapshot and it differs from the
current changeset, the changeset is bumped twice in total (once directly
and once inside `setModified`), the modified flag is set, and exactly one
`signalModified(True)` is emitted. -/
theorem enableUpdates_emit (d : Doc) (c : Nat)
    (h : d.suspendupdates = [c]) (hc : c ≠ d.changeset) :
    enableUpdates d =
      some { d with
              suspendupdates := [], changeset := d.changeset + 2,
              modified := true, emitted := d.emitted ++ [true] } := by
  simp only [enableUpdates, h, setModified]
  rw [if_pos ⟨trivial, hc⟩]
  rfl

/-- A successful `applyOperation` restores the suspend stack, clears the
redo stack, and records the operation: appended to the innermost open
batch when one is open (undo stack untouched), else pushed onto the undo
stack truncated to the last ten entries. -/
theorem applyOperation_ok (op : Op) (d : Doc)
    (h : (applyOperation op d).2 = true) :
    (applyOperation op d).1.historyredo = [] ∧
    (applyOperation op d).1.suspendupdates = d.suspendupdates ∧
    (d.historybatch = [] →
      (applyOperation op d).1.historybatch = [] ∧
      (applyOperation op d).1.historyundo = takeLast 9 d.historyundo ++ [op]) ∧
    (∀ b bs, d.historybatch = b :: bs →
      (applyOperation op d).1.historybatch = (b ++ [op]) :: bs ∧
      (applyOperation op d).1.historyundo = d.historyundo) := by
  have hdo := opDo_frame op (suspendUpdates d)
  simp only [applyOperation] at h ⊢
  set r := opDo op (suspendUpdates d) with hrdef
  have hsusp : r.1.suspendupdates = d.changeset :: d.suspendupdates := hdo.2.2.2.1
  by_cases h2 : r.2 = true
  · rw [if_pos h2] at h ⊢
    have hne : ({ r.1 with changeset := r.1.changeset + 1 } : Doc).suspendupdates ≠ [] := by
      show r.1.suspendupdates ≠ []
      rw [hsusp]
      exact List.cons_ne_nil _ _
    obtain ⟨d3, he, hst, hb, hu, hre, hdata, hlogs, hcust, hq⟩ := enableUpdates_total _ hne
    rw [he] at h ⊢
    have hb3 : d3.historybatch = d.historybatch := hb.trans hdo.1
    have hu3 : d3.historyundo = d.historyundo := hu.trans hdo.2.1
    have hst3 : d3.suspendupdates = d.suspendupdates := by
      rw [hst]
      show r.1.suspendupdates.tail = d.suspendupdates
      rw [hsusp]
      rfl
    refine ⟨rfl, ?_, ?_, ?_⟩
    · exact (recordOp_frame op d3).1.trans hst3
    · intro hnil
      obtain ⟨ha, hbu⟩ := recordOp_of_nil op d3 (hb3.trans hnil)
      exact ⟨ha, by rw [hbu, hu3]⟩
    · intro b bs hbb
      obtain ⟨ha, hbu⟩ := recordOp_of_cons op d3 b bs (hb3.trans hbb)
      exact ⟨ha, hbu.trans hu3⟩
  · exfalso
    rw [if_neg h2] at h
    rcases hen : enableUpdates r.1 with _ | d3 <;> rw [hen] at h <;> simp at h

/-- While the suspend stack is non-empty, `applyOperation` (succeeding
or raising) leaves the suspend stack and the emission log unchanged. -/
theorem applyOperation_suspended (op : Op) (d : Doc)
    (hs : d.suspendupdates ≠ []) :
    (applyOperation op d).1.suspendupdates = d.suspendupdates ∧
    (applyOperation op d).1.emitted = d.emitted := by
  have hdo := opDo_frame op (suspendUpdates d)
  simp only [applyOperation]
  set r := opDo op (suspendUpdates d) with hrdef
  have hsusp : r.1.suspendupdates = d.changeset :: d.suspendupdates := hdo.2.2.2.1
  have hemit : r.1.emitted = d.emitted :=
    hdo.2.2.2.2 (List.cons_ne_nil _ _)
  by_cases h2 : r.2 = true
  · rw [if_pos h2]
    have hne : ({ r.1 with changeset := r.1.changeset + 1 } : Doc).suspendupdates ≠ [] := by
      show r.1.suspendupdates ≠ []
      rw [hsusp]
      exact List.cons_ne_nil _ _
    obtain ⟨d3, he, hst, hb, hu, hre, hdata, hlogs, hcust, hq⟩ := enableUpdates_total _ hne
    rw [he]
    have htl : ({ r.1 with changeset := r.1.changeset + 1 } : Doc).suspendupdates.tail
        = d.suspendupdates := by
      show r.1.suspendupdates.tail = d.suspendupdates
      rw [hsusp]
      rfl
    obtain ⟨hq1, _, _⟩ := hq (by rw [htl]; exact hs)
    constructor
    · exact (recordOp_frame op d3).1.trans (hst.trans htl)
    · exact (recordOp_frame op d3).2.1.trans (hq1.trans hemit)
  · rw [if_neg h2]
    have hne : r.1.suspendupdates ≠ [] := by
      rw [hsusp]; exact List.cons_ne_nil _ _
    obtain ⟨d3, he, hst, hb, hu, hre, hdata, hlogs, hcust, hq⟩ := enableUpdates_total _ hne
    rw [he]
    have htl : r.1.suspendupdates.tail = d.suspendupdates := by rw [hsusp]; rfl
    obtain ⟨hq1, _, _⟩ := hq (by rw [htl]; exact hs)
    exact ⟨hst.trans htl, hq1.trans hemit⟩

/-- While the suspend stack is non-empty, `undoOperation` (succeeding or
raising) leaves the suspend stack and the emission log unchanged. -/
theorem undoOperation_suspended (d : Doc) (hs : d.suspendupdates ≠ []) :
    (undoOperation d).1.suspendupdates = d.suspendupdates ∧
    (undoOperation d).1.emitted = d.emitted := by
  cases hl : d.historyundo.getLast? with
  | none => simp [undoOperation, hl]
  | some op =>
    simp only [undoOperation, hl]
    have hdo := opUndo_frame op (suspendUpdates { d with historyundo := d.historyundo.dropLast })
    set r := opUndo op (suspendUpdates { d with historyundo := d.historyundo.dropLast }) with hrdef
    have hsusp : r.1.suspendupdates = d.changeset :: d.suspendupdates := hdo.2.2.2.1
    have hemit : r.1.emitted = d.emitted := hdo.2.2.2.2 (List.cons_ne_nil _ _)
    by_cases h2 : r.2 = true
    · rw [if_pos h2]
      have hne : ({ r.1 with changeset := r.1.changeset + 1 } : Doc).suspendupdates ≠ [] := by
        show r.1.suspendupdates ≠ []
        rw [hsusp]
        exact List.cons_ne_nil _ _
      obtain ⟨d3, he, hst, hb, hu, hre, hdata, hlogs, hcust, hq⟩ := enableUpdates_total _ hne
      rw [he]
      have htl : ({ r.1 with changeset := r.1.changeset + 1 } : Doc).suspendupdates.tail
          = d.suspendupdates := by
        show r.1.suspendupdates.tail = d.suspendupdates
        rw [hsusp]
        rfl
      obtain ⟨hq1, _, _⟩ := hq (by rw [htl]; exact hs)
      exact ⟨hst.trans htl, hq1.trans hemit⟩
    · rw [if_neg h2]
      have hne : r.1.suspendupdates ≠ [] := by
        rw [hsusp]; exact List.cons_ne_nil _ _
      obtain ⟨d3, he, hst, hb, hu, hre, hdata, hlogs, hcust, hq⟩ := enableUpdates_total _ hne
      rw [he]
      have htl : r.1.suspendupdates.tail = d.suspendupdates := by rw [hsusp]; rfl
      obtain ⟨hq1, _, _⟩ := hq (by rw [htl]; exact hs)
      exact ⟨hst.trans htl, hq1.trans hemit⟩

/-- A mutation event leaves a non-empty suspend stack unchanged and
emits nothing while it is non-empty (whether it succeeds or raises). -/
theorem runEv_mut_frame (m : Mut) (d : Doc) (hs : d.suspendupdates ≠ []) :
    (runEv (.mutE m) d).1.suspendupdates = d.suspendupdates ∧
    (runEv (.mutE m) d).1.emitted = d.emitted := by
  cases m with
  | setDataM name ds =>
    have h := runAct_frame (.setDataA name ds) d
    exact ⟨h.2.2.2.1, h.2.2.2.2 hs⟩
  | deleteDataM name =>
    have h := runAct_frame (.deleteDataA name) d
    exact ⟨h.2.2.2.1, h.2.2.2.2 hs⟩
  | renameM o n =>
    have h := runAct_frame (.renameA o n) d
    exact ⟨h.2.2.2.1, h.2.2.2.2 hs⟩
  | applyM op => exact applyOperation_suspended op d hs
  | undoM => exact undoOperation_suspended d hs
  | setModifiedM b =>
    have h := setModified_frame b d
    exact ⟨h.2.2.2.1, h.2.2.2.2.2.2 hs⟩

/-- The suspension invariant: inside well-nested scopes (depth `n`, a
non-empty preserved tail below), running any events emits nothing, the
tail of the suspend stack survives untouched, and on a raise-free run
the depth above the tail is the predicted final depth. -/
theorem runEvs_inv (es : List Ev) :
    ∀ (n : Nat) (pre tail : List Nat) (d : Doc),
      depthOkB es n = true → pre.length = n → tail ≠ [] →
      d.suspendupdates = pre ++ tail →
      (runEvs es d).1.emitted = d.emitted ∧
      ∃ pre', (runEvs es d).1.suspendupdates = pre' ++ tail ∧
        ((runEvs es d).2 = true → pre'.length = finalDepth es n) := by
  induction es with
  | nil =>
    intro n pre tail d hok hlen htail hsusp
    exact ⟨rfl, pre, hsusp, fun _ => hlen⟩
  | cons e rest ih =>
    intro n pre tail d hok hlen htail hsusp
    have hne : d.suspendupdates ≠ [] := by
      rw [hsusp]
      intro hcontra
      exact htail (List.append_eq_nil.mp hcontra).2
    cases e with
    | suspend =>
      have hok' : depthOkB rest (n + 1) = true := hok
      have hstep : runEvs (Ev.suspend :: rest) d = runEvs rest (suspendUpdates d) := by
        simp [runEvs, runEv]
      rw [hstep]
      have hrec := ih (n + 1) (d.changeset :: pre) tail (suspendUpdates d) hok'
        (by simp [hlen]) htail (by simp [suspendUpdates, hsusp])
      obtain ⟨hemit, pre', hstack, hflag⟩ := hrec
      exact ⟨hemit, pre', hstack, fun hfl => hflag hfl⟩
    | enable =>
      have hok2 := hok
      simp only [depthOkB, Bool.and_eq_true, decide_eq_true_eq] at hok2
      obtain ⟨h0, hok'⟩ := hok2
      cases pre with
      | nil =>
        exfalso
        simp only [List.length_nil] at hlen
        omega
      | cons x pre0 =>
        have hsusp' : d.suspendupdates = x :: (pre0 ++ tail) := by simpa using hsusp
        have hq : pre0 ++ tail ≠ [] := by
          intro hcontra
          exact htail (List.append_eq_nil.mp hcontra).2
        have he := enableUpdates_noemit d x (pre0 ++ tail) hsusp' (Or.inl hq)
        have hstep : runEvs (Ev.enable :: rest) d
            = runEvs rest { d with suspendupdates := pre0 ++ tail } := by
          simp [runEvs, runEv, he]
        rw [hstep]
        have hlen0 : pre0.length = n - 1 := by
          simp only [List.length_cons] at hlen
          omega
        have hrec := ih (n - 1) pre0 tail { d with suspendupdates := pre0 ++ tail } hok' hlen0 htail rfl
        obtain ⟨hemit, pre', hstack, hflag⟩ := hrec
        exact ⟨hemit, pre', hstack, fun hfl => hflag hfl⟩
    | mutE m =>
      obtain ⟨hstk, hemit1⟩ := runEv_mut_frame m d hne
      by_cases hfl : (runEv (.mutE m) d).2 = true
      · have hstep : runEvs (Ev.mutE m :: rest) d = runEvs rest (runEv (.mutE m) d).1 := by
          simp [runEvs, hfl]
        rw [hstep]
        have hrec := ih n pre tail (runEv (.mutE m) d).1 hok hlen htail
          (by rw [hstk, hsusp])
        obtain ⟨hemit, pre', hstack, hflag⟩ := hrec
        exact ⟨hemit.trans hemit1, pre', hstack, fun hfl2 => hflag hfl2⟩
      · have hstep : runEvs (Ev.mutE m :: rest) d = ((runEv (.mutE m) d).1, false) := by
          simp [runEvs, hfl]
        rw [hstep]
        refine ⟨hemit1, pre, by rw [hstk, hsusp], fun hcontra => ?_⟩
        simp at hcontra

/-- Splitting a run of events at a list append. -/
theorem runEvs_append (a b : List Ev) (d : Doc) :
    runEvs (a ++ b) d =
      if (runEvs a d).2 = true then runEvs b (runEvs a d).1 else runEvs a d := by
  induction a generalizing d with
  | nil => simp [runEvs]
  | cons e rest ih =>
    simp only [List.cons_append, runEvs]
    by_cases h : (runEv e d).2 = true
    · simp [h, ih]
    · simp [h]

/-! ## Claim C1 -/

/-- Claim C1: for every document state and every operation whose
`do(document)` returns normally, `applyOperation` leaves the redo stack
empty on return — including when the undo stack was empty beforehand
(the statement quantifies over all states) and when a batch is currently
open, in which case the operation is appended to the innermost open
batch rather than the undo stack, but the redo stack is still cleared. -/
theorem c1_applyOperation_clears_redo (op : Op) (d : Doc)
    (h : (applyOperation op d).2 = true) :
    (applyOperation op d).1.historyredo = [] ∧
    (∀ b bs, d.historybatch = b :: bs →
      (applyOperation op d).1.historybatch = (b ++ [op]) :: bs ∧
      (applyOperation op d).1.historyundo = d.historyundo) := by
  obtain ⟨h1, _, _, h4⟩ := applyOperation_ok op d h
  exact ⟨h1, h4⟩

/-- Witness for C1 at a concrete state with an open batch. -/
theorem c1_witness :
    (applyOperation trivOp docBatch).2 = true ∧
    (applyOperation trivOp docBatch).1.historyredo = [] ∧
    (applyOperation trivOp docBatch).1.historybatch = [[trivOp]] := by
  refine ⟨by decide, (c1_applyOperation_clears_redo trivOp docBatch (by decide)).1, ?_⟩
  have h := (c1_applyOperation_clears_redo trivOp docBatch (by decide)).2 [] [] rfl
  simpa using h.1

/-! ## Claim C2 -/

/-- Claim C2: while the suspend-depth stack is non-empty, no
modification signal is emitted by any document mutation (`setData`,
`deleteData`, `renameDataset`, `applyOperation`, `undoOperation`, nested
`setModified` calls); and for any well-nested suspension scope around
any events, at most one notification is emitted in total, at the exit of
the outermost scope, and zero notifications are emitted if the changeset
did not change between the outermost suspend and its matching enable. -/
theorem c2_suspension_silence :
    (∀ (m : Mut) (d : Doc), d.suspendupdates ≠ [] →
      (runEv (Ev.mutE m) d).1.emitted = d.emitted) ∧
    (∀ (es : List Ev) (d : Doc), d.suspendupdates = [] →
      depthOkB es 0 = true → finalDepth es 0 = 0 →
      ((runEvs (Ev.suspend :: es ++ [Ev.enable]) d).1.emitted = d.emitted ∨
       (runEvs (Ev.suspend :: es ++ [Ev.enable]) d).1.emitted = d.emitted ++ [true]) ∧
      ((runEvs (Ev.suspend :: es) d).1.changeset = d.changeset →
        (runEvs (Ev.suspend :: es ++ [Ev.enable]) d).1.emitted = d.emitted)) := by
  constructor
  · intro m d hs
    exact (runEv_mut_frame m d hs).2
  · intro es d hempty hok hfd
    have hstepA : runEvs (Ev.suspend :: es) d = runEvs es (suspendUpdates d) := by
      simp [runEvs, runEv]
    have hsusp1 : (suspendUpdates d).suspendupdates = [] ++ [d.changeset] := by
      simp [suspendUpdates, hempty]
    obtain ⟨hemitA, pre', hstackA, hflagA⟩ :=
      runEvs_inv es 0 [] [d.changeset] (suspendUpdates d) hok rfl (by simp) hsusp1
    have hemitA' : (runEvs (Ev.suspend :: es) d).1.emitted = d.emitted := by
      rw [hstepA]; exact hemitA
    have hlist : Ev.suspend :: es ++ [Ev.enable] = (Ev.suspend :: es) ++ [Ev.enable] := by
      simp
    by_cases hA2 : (runEvs (Ev.suspend :: es) d).2 = true
    · have hA2' : (runEvs es (suspendUpdates d)).2 = true := by
        rw [← hstepA]; exact hA2
      have hpre : pre' = [] := by
        have h0 := hflagA hA2'
        rw [hfd] at h0
        exact List.length_eq_zero.mp h0
      have hstackB : (runEvs es (suspendUpdates d)).1.suspendupdates = [d.changeset] := by
        rw [hstackA, hpre]
        rfl
      have hrun : runEvs (Ev.suspend :: es ++ [Ev.enable]) d
          = runEvs [Ev.enable] (runEvs es (suspendUpdates d)).1 := by
        rw [hlist, runEvs_append, if_pos hA2, hstepA]
      have hemitB : (runEvs es (suspendUpdates d)).1.emitted = d.emitted := hemitA
      by_cases hcs : d.changeset = (runEvs es (suspendUpdates d)).1.changeset
      · have he := enableUpdates_noemit (runEvs es (suspendUpdates d)).1 d.changeset []
          hstackB (Or.inr hcs)
        have hq : (runEvs [Ev.enable] (runEvs es (suspendUpdates d)).1).1.emitted
            = (runEvs es (suspendUpdates d)).1.emitted := by
          simp [runEvs, runEv, he]
        exact ⟨Or.inl (by rw [hrun, hq]; exact hemitB),
               fun _ => by rw [hrun, hq]; exact hemitB⟩
      · have he := enableUpdates_emit (runEvs es (suspendUpdates d)).1 d.changeset
          hstackB hcs
        have hq : (runEvs [Ev.enable] (runEvs es (suspendUpdates d)).1).1.emitted
            = (runEvs es (suspendUpdates d)).1.emitted ++ [true] := by
          simp [runEvs, runEv, he]
        refine ⟨Or.inr (by rw [hrun, hq, hemitB]), fun hzero => ?_⟩
        rw [hstepA] at hzero
        exact absurd hzero.symm hcs
    · have hrun : runEvs (Ev.suspend :: es ++ [Ev.enable]) d = runEvs (Ev.suspend :: es) d := by
        rw [hlist, runEvs_append, if_neg hA2]
      exact ⟨Or.inl (by rw [hrun]; exact hemitA'),
             fun _ => by rw [hrun]; exact hemitA'⟩

/-- Witness for C2: a nested `setModified` while suspended is silent,
and a scope around one `setData` emits at most once. -/
theorem c2_witness :
    (runEv (Ev.mutE (Mut.setModifiedM true)) docSusp).1.emitted = docSusp.emitted ∧
    ((runEvs (Ev.suspend :: evSample ++ [Ev.enable]) emptyDoc).1.emitted = emptyDoc.emitted ∨
     (runEvs (Ev.suspend :: evSample ++ [Ev.enable]) emptyDoc).1.emitted
       = emptyDoc.emitted ++ [true]) :=
  ⟨c2_suspension_silence.1 (Mut.setModifiedM true) docSusp (by decide),
   (c2_suspension_silence.2 evSample emptyDoc rfl (by decide) (by decide)).1⟩

/-! ## Claim C3 -/

/-- Counterexample to claim C3 as stated: with `suspendupdates = [0]`
and `changeset = 1`, `enableUpdates` pops the last snapshot, the
snapshot differs from the changeset, and the changeset observed by
listeners is `3` — exactly two greater than its value `1` at the moment
the scope was exited, not one greater as claimed (one bump is done by
`enableUpdates` itself and a second inside `setModified`).  Exactly one
notification is fired. -/
theorem c3_counterexample :
    (enableUpdates docC3).map Doc.changeset = some 3 ∧
    ¬ (enableUpdates docC3).map Doc.changeset = some (docC3.changeset + 1) ∧
    (enableUpdates docC3).map Doc.emitted = some [true] := by
  decide

/-- Claim C3 (amended): when `enableUpdates` pops the last entry off the
suspend stack and the popped snapshot differs from the current
changeset, it increments the changeset twice in total — once directly
and once more inside the `setModified` call — so the changeset observed
by listeners is exactly two greater than its value at the moment the
outermost scope was exited, and it fires exactly one modified
notification. -/
theorem c3_enableUpdates_amended (d : Doc) (c : Nat)
    (h : d.suspendupdates = [c]) (hc : c ≠ d.changeset) :
    enableUpdates d =
      some { d with
              suspendupdates := [], changeset := d.changeset + 2,
              modified := true, emitted := d.emitted ++ [true] } :=
  enableUpdates_emit d c h hc

/-- Witness for the amended C3 at a concrete state. -/
theorem c3_witness :
    docC3.suspendupdates = [0] ∧ (0 : Nat) ≠ docC3.changeset ∧
    enableUpdates docC3 =
      some { docC3 with
              suspendupdates := [], changeset := docC3.changeset + 2,
              modified := true, emitted := docC3.emitted ++ [true] } :=
  ⟨rfl, by decide, c3_enableUpdates_amended docC3 0 rfl (by decide)⟩

/-! ## The bounded undo stack (claim C4) -/

/-- `takeLast` through `reverse`/`take`. -/
theorem takeLast_eq {α : Type} (n : Nat) (l : List α) :
    takeLast n l = (l.reverse.take n).reverse := by
  unfold takeLast
  rw [List.take_reverse, List.reverse_reverse]

/-- Pushing one element onto a slice of the last `n` keeps the last
`n + 1`. -/
theorem takeLast_append_singleton {α : Type} (n : Nat) (l : List α) (a : α) :
    takeLast n l ++ [a] = takeLast (n + 1) (l ++ [a]) := by
  rw [takeLast_eq, takeLast_eq, List.reverse_append]
  simp

/-- Truncating before appending does not change the last `n`. -/
theorem takeLast_takeLast_append {α : Type} (n : Nat) (l r : List α) :
    takeLast n (takeLast n l ++ r) = takeLast n (l ++ r) := by
  rw [takeLast_eq n (takeLast n l ++ r), takeLast_eq n (l ++ r), takeLast_eq n l]
  rw [List.reverse_append, List.reverse_append, List.reverse_reverse]
  rw [List.take_append_eq_append_take, List.take_append_eq_append_take, List.take_take]
  rw [inf_of_le_left (Nat.sub_le _ _)]

/-- The last `n` of an append ignore the left part when the right part
is long enough. -/
theorem takeLast_append_of_le_length {α : Type} (n : Nat) (l r : List α)
    (h : n ≤ r.length) :
    takeLast n (l ++ r) = takeLast n r := by
  rw [takeLast_eq, takeLast_eq, List.reverse_append, List.take_append_eq_append_take]
  have h0 : n - r.reverse.length = 0 := by
    simp only [List.length_reverse]
    omega
  rw [h0, List.take_zero, List.append_nil]

/-- Applying a non-empty raise-free sequence of operations outside any
batch leaves no batch open and leaves exactly the last ten of
(previous undo stack ++ applied operations) on the undo stack. -/
theorem applyList_undo (ops : List Op) :
    ∀ d : Doc, d.historybatch = [] → (applyList ops d).2 = true → ops ≠ [] →
      (applyList ops d).1.historybatch = [] ∧
      (applyList ops d).1.historyundo = takeLast 10 (d.historyundo ++ ops) := by
  induction ops with
  | nil => intro d _ _ hne; exact absurd rfl hne
  | cons op rest ih =>
    intro d hb hok _
    have h1 : (applyOperation op d).2 = true := by
      by_cases hc : (applyOperation op d).2 = true
      · exact hc
      · exfalso
        simp [applyList, hc] at hok
    have hstep : applyList (op :: rest) d = applyList rest (applyOperation op d).1 := by
      simp only [applyList, h1, if_true]
    obtain ⟨_, _, hnil, _⟩ := applyOperation_ok op d h1
    obtain ⟨hb1, hu1⟩ := hnil hb
    have hu1' : (applyOperation op d).1.historyundo = takeLast 10 (d.historyundo ++ [op]) := by
      rw [hu1, takeLast_append_singleton]
    by_cases hrest : rest = []
    · subst hrest
      rw [hstep]
      simp only [applyList]
      refine ⟨hb1, ?_⟩
      rw [hu1']
    · rw [hstep] at hok ⊢
      have hrec := ih (applyOperation op d).1 hb1 hok hrest
      refine ⟨hrec.1, ?_⟩
      rw [hrec.2, hu1', takeLast_takeLast_append]
      simp

/-! ## Claim C4 -/

/-- Claim C4: the undo stack never holds more than 10 operations —
after applying `n ≥ 10` operations outside any batch (raise-free), the
undo stack contains exactly the 10 most recently applied operations;
and concretely, applying 15 operations then calling `undoOperation`
repeatedly succeeds exactly 10 times, leaving an empty undo stack, and
the 11th call fails with the empty-history error. -/
theorem c4_undo_stack_bounded :
    (∀ (ops : List Op) (d : Doc), d.historybatch = [] →
      (applyList ops d).2 = true → 10 ≤ ops.length →
      (applyList ops d).1.historyundo = takeLast 10 ops) ∧
    ((applyList (List.replicate 15 trivOp) emptyDoc).2 = true ∧
     (undoTimes 10 (applyList (List.replicate 15 trivOp) emptyDoc).1).2 = true ∧
     (undoTimes 10 (applyList (List.replicate 15 trivOp) emptyDoc).1).1.historyundo = [] ∧
     (undoTimes 11 (applyList (List.replicate 15 trivOp) emptyDoc).1).2 = false) := by
  constructor
  · intro ops d hb hok hlen
    have hne : ops ≠ [] := by
      intro hc
      subst hc
      simp at hlen
    rw [(applyList_undo ops d hb hok hne).2]
    exact takeLast_append_of_le_length 10 d.historyundo ops hlen
  · exact ⟨by decide, by decide, by decide, by decide⟩

/-- Witness for C4 at the concrete 15-operation run. -/
theorem c4_witness :
    emptyDoc.historybatch = [] ∧
    (applyList (List.replicate 15 trivOp) emptyDoc).2 = true ∧
    10 ≤ (List.replicate 15 trivOp).length ∧
    (applyList (List.replicate 15 trivOp) emptyDoc).1.historyundo
      = takeLast 10 (List.replicate 15 trivOp) :=
  ⟨rfl, by decide, by decide,
   c4_undo_stack_bounded.1 (List.replicate 15 trivOp) emptyDoc rfl (by decide) (by decide)⟩

/-! ## Dictionary lemmas (for the rename claims) -/

/-- Looking up the key just set finds the new value. -/
theorem dlookup_dset_self {α : Type} (k : String) (v : α) :
    ∀ l : List (String × α), dlookup k (dset k v l) = some v := by
  intro l
  induction l with
  | nil => simp [dset, dlookup]
  | cons p rest ih =>
    obtain ⟨k1, v1⟩ := p
    simp only [dset]
    by_cases h : k1 = k
    · rw [if_pos h]
      simp [dlookup]
    · rw [if_neg h]
      simp only [dlookup]
      rw [if_neg h]
      exact ih

/-- Setting one key leaves lookups of other keys unchanged. -/
theorem dlookup_dset_ne {α : Type} (k k' : String) (v : α) (h : k' ≠ k) :
    ∀ l : List (String × α), dlookup k' (dset k v l) = dlookup k' l := by
  intro l
  induction l with
  | nil =>
    simp only [dset, dlookup]
    rw [if_neg fun hc => h hc.symm]
  | cons p rest ih =>
    obtain ⟨k1, v1⟩ := p
    simp only [dset]
    by_cases h1 : k1 = k
    · subst h1
      rw [if_pos rfl]
      simp only [dlookup]
      rw [if_neg fun hc => h hc.symm, if_neg fun hc => h hc.symm]
    · rw [if_neg h1]
      simp only [dlookup]
      by_cases h2 : k1 = k'
      · rw [if_pos h2, if_pos h2]
      · rw [if_neg h2, if_neg h2]
        exact ih

/-- A deleted key is gone. -/
theorem dlookup_ddel_self {α : Type} (k : String) :
    ∀ l : List (String × α), dlookup k (ddel k l) = none := by
  intro l
  induction l with
  | nil => rfl
  | cons p rest ih =>
    obtain ⟨k1, v1⟩ := p
    simp only [ddel]
    by_cases h : k1 = k
    · rw [if_pos h]
      exact ih
    · rw [if_neg h]
      simp only [dlookup]
      rw [if_neg h]
      exact ih

/-- Deleting one key leaves lookups of other keys unchanged. -/
theorem dlookup_ddel_ne {α : Type} (k k' : String) (h : k' ≠ k) :
    ∀ l : List (String × α), dlookup k' (ddel k l) = dlookup k' l := by
  intro l
  induction l with
  | nil => rfl
  | cons p rest ih =>
    obtain ⟨k1, v1⟩ := p
    simp only [ddel]
    by_cases h1 : k1 = k
    · subst h1
      rw [if_pos rfl]
      simp only [dlookup]
      rw [if_neg fun hc => h hc.symm]
      exact ih
    · rw [if_neg h1]
      simp only [dlookup]
      by_cases h2 : k1 = k'
      · rw [if_pos h2, if_pos h2]
      · rw [if_neg h2, if_neg h2]
        exact ih

/-- Setting an absent key appends the binding at the end. -/
theorem dset_absent {α : Type} (k : String) (v : α) :
    ∀ l : List (String × α), dlookup k l = none → dset k v l = l ++ [(k, v)] := by
  intro l
  induction l with
  | nil => intro _; rfl
  | cons p rest ih =>
    obtain ⟨k1, v1⟩ := p
    intro h
    simp only [dlookup] at h
    by_cases h1 : k1 = k
    · rw [if_pos h1] at h
      cases h
    · rw [if_neg h1] at h
      simp only [dset]
      rw [if_neg h1, ih h]
      rfl

/-- Deleting an absent key does nothing. -/
theorem ddel_absent {α : Type} (k : String) :
    ∀ l : List (String × α), dlookup k l = none → ddel k l = l := by
  intro l
  induction l with
  | nil => intro _; rfl
  | cons p rest ih =>
    obtain ⟨k1, v1⟩ := p
    intro h
    simp only [dlookup] at h
    by_cases h1 : k1 = k
    · rw [if_pos h1] at h
      cases h
    · rw [if_neg h1] at h
      simp only [ddel]
      rw [if_neg h1, ih h]

/-- Deletion distributes over append. -/
theorem ddel_append {α : Type} (k : String) (l1 l2 : List (String × α)) :
    ddel k (l1 ++ l2) = ddel k l1 ++ ddel k l2 := by
  induction l1 with
  | nil => rfl
  | cons p rest ih =>
    obtain ⟨k1, v1⟩ := p
    simp only [List.cons_append, ddel]
    by_cases h : k1 = k
    · rw [if_pos h, if_pos h]
      simpa using ih
    · rw [if_neg h, if_neg h]
      simpa using ih

/-- Lookup skips a left part that does not hold the key. -/
theorem dlookup_append_of_none {α : Type} (k : String) (l1 l2 : List (String × α))
    (h : dlookup k l1 = none) :
    dlookup k (l1 ++ l2) = dlookup k l2 := by
  induction l1 with
  | nil => rfl
  | cons p rest ih =>
    obtain ⟨k1, v1⟩ := p
    simp only [dlookup] at h
    simp only [List.cons_append, dlookup]
    by_cases h1 : k1 = k
    · rw [if_pos h1] at h
      cases h
    · rw [if_neg h1] at h ⊢
      exact ih h

/-- Lookup ignores an appended binding for another key. -/
theorem dlookup_append_singleton_ne {α : Type} (k a : String) (v : α)
    (h : k ≠ a) :
    ∀ l : List (String × α), dlookup k (l ++ [(a, v)]) = dlookup k l := by
  intro l
  induction l with
  | nil =>
    simp only [List.nil_append, dlookup]
    rw [if_neg fun hc => h hc.symm]
  | cons p rest ih =>
    obtain ⟨k1, v1⟩ := p
    simp only [List.cons_append, dlookup]
    by_cases h1 : k1 = k
    · rw [if_pos h1, if_pos h1]
    · rw [if_neg h1, if_neg h1]
      exact ih

/-! ## Claim C9 -/

/-- Claim C9: for every document whose store contains both `oldname` and
`newname` (distinct), `renameDataset` raises no error; afterwards
`newname` maps to the dataset formerly stored under `oldname` (with its
username updated), `oldname` is absent, every other name is untouched —
so the dataset previously stored under `newname` has been silently
dropped from the store, with no error or warning. -/
theorem c9_rename_overwrites (d : Doc) (oldname newname : String)
    (ds1 ds2 : Dataset) (hne : oldname ≠ newname)
    (h1 : dlookup oldname d.data = some ds1)
    (h2 : dlookup newname d.data = some ds2) :
    (renameDataset oldname newname d).2 = true ∧
    dlookup newname (renameDataset oldname newname d).1.data
      = some { ds1 with username := newname } ∧
    dlookup oldname (renameDataset oldname newname d).1.data = none ∧
    (∀ k, k ≠ oldname → k ≠ newname →
      dlookup k (renameDataset oldname newname d).1.data = dlookup k d.data) := by
  simp only [renameDataset, h1]
  have hdata := (setModified_frame true { d with data := dset newname { ds1 with username := newname } (ddel oldname d.data) }).2.2.2.2.1
  refine ⟨trivial, ?_, ?_, ?_⟩
  · rw [hdata]
    exact dlookup_dset_self newname _ _
  · rw [hdata, dlookup_dset_ne newname oldname _ hne]
    exact dlookup_ddel_self oldname _
  · intro k hko hkn
    rw [hdata, dlookup_dset_ne newname k _ hkn]
    exact dlookup_ddel_ne oldname k hko _

/-- Witness for C9: renaming `a` over the occupied name `b` destroys
the dataset stored at `b`. -/
theorem c9_witness :
    ("a" : String) ≠ "b" ∧
    dlookup "a" docAB.data = some dsA ∧
    dlookup "b" docAB.data = some dsB ∧
    (renameDataset "a" "b" docAB).2 = true ∧
    dlookup "b" (renameDataset "a" "b" docAB).1.data
      = some { dsA with username := "b" } :=
  ⟨by decide, by decide, by decide,
   (c9_rename_overwrites docAB "a" "b" dsA dsB (by decide) (by decide) (by decide)).1,
   (c9_rename_overwrites docAB "a" "b" dsA dsB (by decide) (by decide) (by decide)).2.1⟩

/-! ## Claim C6 -/

/-- Counterexample to claim C6 as stated: the claim quantifies over
every document whose store contains name `a`; in a store that also
contains `b`, renaming `a` to `b` and back succeeds but the dataset
originally stored under `b` is gone, so the original store content is
not restored. -/
theorem c6_counterexample :
    dlookup "a" docAB.data = some dsA ∧
    dlookup "b" docAB.data = some dsB ∧
    (renameDataset "a" "b" docAB).2 = true ∧
    (renameDataset "b" "a" (renameDataset "a" "b" docAB).1).2 = true ∧
    dlookup "b" (renameDataset "b" "a" (renameDataset "a" "b" docAB).1).1.data
      = none := by
  decide

/-- Claim C6 (amended): for every document whose dataset store contains
name `a` (with the dataset's username back-reference equal to `a`, as
`setData`/`renameDataset` maintain) and does not contain name `b`,
`renameDataset('a','b')` followed immediately by `renameDataset('b','a')`
raises no error and restores the original name-to-dataset mapping, and
with it the original per-dataset tag associations. -/
theorem c6_rename_roundtrip (d : Doc) (ds : Dataset)
    (h1 : dlookup "a" d.data = some ds)
    (hu : ds.username = "a")
    (h2 : dlookup "b" d.data = none) :
    (renameDataset "a" "b" d).2 = true ∧
    (renameDataset "b" "a" (renameDataset "a" "b" d).1).2 = true ∧
    (∀ k, dlookup k (renameDataset "b" "a" (renameDataset "a" "b" d).1).1.data
        = dlookup k d.data) ∧
    (∀ k, (dlookup k (renameDataset "b" "a" (renameDataset "a" "b" d).1).1.data).map
          Dataset.tags
        = (dlookup k d.data).map Dataset.tags) := by
  have hab : ("b" : String) ≠ "a" := by decide
  -- data after the first rename
  have hdata1 : (renameDataset "a" "b" d).1.data
      = ddel "a" d.data ++ [("b", { ds with username := "b" })] := by
    simp only [renameDataset, h1]
    rw [(setModified_frame true _).2.2.2.2.1]
    refine dset_absent "b" _ (ddel "a" d.data) ?_
    rw [dlookup_ddel_ne "a" "b" hab]
    exact h2
  have hflag1 : (renameDataset "a" "b" d).2 = true := by
    simp only [renameDataset, h1]
  -- the dataset found under b afterwards
  have hlook1 : dlookup "b" (renameDataset "a" "b" d).1.data
      = some { ds with username := "b" } := by
    rw [hdata1, dlookup_append_of_none "b" _ _ ?_]
    · simp [dlookup]
    · rw [dlookup_ddel_ne "a" "b" hab]
      exact h2
  -- data after the second rename
  set D1 : Doc := (renameDataset "a" "b" d).1 with hD1
  have hback : ({ username := "a", tags := ds.tags, linked := ds.linked,
                  dstype := ds.dstype, payload := ds.payload } : Dataset) = ds := by
    cases ds
    simp only at hu
    simp [hu]
  have hdel : ddel "b" D1.data = ddel "a" d.data := by
    rw [hdata1, ddel_append]
    have hbn : dlookup "b" (ddel "a" d.data) = none := by
      rw [dlookup_ddel_ne "a" "b" hab]
      exact h2
    rw [ddel_absent "b" _ hbn]
    simp [ddel]
  have hdata2 : (renameDataset "b" "a" D1).1.data
      = ddel "a" d.data ++ [("a", ds)] := by
    simp only [renameDataset, hlook1]
    rw [(setModified_frame true _).2.2.2.2.1]
    rw [hback, hdel]
    refine dset_absent "a" ds (ddel "a" d.data) ?_
    exact dlookup_ddel_self "a" _
  have hflag2 : (renameDataset "b" "a" D1).2 = true := by
    simp only [renameDataset, hlook1]
  have hmain : ∀ k, dlookup k (renameDataset "b" "a" D1).1.data
      = dlookup k d.data := by
    intro k
    rw [hdata2]
    by_cases hk : k = "a"
    · subst hk
      rw [dlookup_append_of_none "a" _ _ (dlookup_ddel_self "a" _), h1]
      simp [dlookup]
    · rw [dlookup_append_singleton_ne k "a" ds hk]
      exact dlookup_ddel_ne "a" k hk d.data
  exact ⟨hflag1, hflag2, hmain, fun k => by rw [hmain k]⟩

/-- Witness for the amended C6 at a concrete one-dataset store. -/
theorem c6_witness :
    dlookup "a" docA.data = some dsA ∧ dsA.username = "a" ∧
    dlookup "b" docA.data = none ∧
    dlookup "a" (renameDataset "b" "a" (renameDataset "a" "b" docA).1).1.data
      = dlookup "a" docA.data :=
  ⟨by decide, by decide, by decide,
   (c6_rename_roundtrip docA dsA (by decide) (by decide) (by decide)).2.2.1 "a"⟩

/-! ## Save-order lemmas (claim C5) -/

/-- `setModified` stores exactly the given flag. -/
theorem setModified_modified (b : Bool) (d : Doc) : (setModified b d).modified = b := by
  simp only [setModified]
  split <;> rfl

/-- A data block has rank 4. -/
theorem rank_eq_of_isDataBlock : ∀ x : Stmt, isDataBlock x = true → rank x = 4 := by
  intro x h
  cases x <;> simp_all [isDataBlock, rank]

/-- A linked declaration has rank 3. -/
theorem rank_eq_of_isLinkDecl : ∀ x : Stmt, isLinkDecl x = true → rank x = 3 := by
  intro x h
  cases x <;> simp_all [isLinkDecl, rank]

/-- A tag statement has rank 5. -/
theorem rank_eq_of_isTagAssign : ∀ x : Stmt, isTagAssign x = true → rank x = 5 := by
  intro x h
  cases x <;> simp_all [isTagAssign, rank]

/-- An import-path directive has rank 1. -/
theorem rank_eq_of_isImportPath : ∀ x : Stmt, isImportPath x = true → rank x = 1 := by
  intro x h
  cases x <;> simp_all [isImportPath, rank]

/-- A constant-rank segment is sorted. -/
theorem pairwise_rank_const (c : Nat) :
    ∀ S : List Stmt, (∀ x ∈ S, rank x = c) → S.Pairwise rankLE := by
  intro S
  induction S with
  | nil => intro _; exact List.Pairwise.nil
  | cons a rest ih =>
    intro h
    refine List.Pairwise.cons ?_ (ih fun x hx => h x (List.mem_cons_of_mem a hx))
    intro b hb
    unfold rankLE
    rw [h a (List.mem_cons_self a rest), h b (List.mem_cons_of_mem a hb)]

/-- Gluing two sorted segments separated by a rank bound. -/
theorem pairwise_rank_glue (A B : List Stmt) (k : Nat)
    (hA : A.Pairwise rankLE) (hB : B.Pairwise rankLE)
    (hAk : ∀ a ∈ A, rank a ≤ k) (hBk : ∀ b ∈ B, k ≤ rank b) :
    (A ++ B).Pairwise rankLE :=
  List.pairwise_append.mpr
    ⟨hA, hB, fun a ha b hb => le_trans (hAk a ha) (hBk b hb)⟩

/-- A rank lower bound extends over an append. -/
theorem rank_lb_append (A B : List Stmt) (k : Nat)
    (hA : ∀ a ∈ A, k ≤ rank a) (hB : ∀ b ∈ B, k ≤ rank b) :
    ∀ x ∈ A ++ B, k ≤ rank x :=
  fun x hx => (List.mem_append.mp hx).elim (hA x) (hB x)

/-- Everything `linkedDecls` writes is a linked declaration. -/
theorem rank_linkedDecls : ∀ (l : List (String × Dataset)) (seen : List Nat),
    ∀ x ∈ linkedDecls l seen, rank x = 3 := by
  intro l
  induction l with
  | nil =>
    intro seen x hx
    simp [linkedDecls] at hx
  | cons p rest ih =>
    intro seen x hx
    obtain ⟨nm, ds⟩ := p
    cases hld : ds.linked with
    | none =>
      simp only [linkedDecls, hld] at hx
      exact ih seen x hx
    | some lf =>
      simp only [linkedDecls, hld] at hx
      by_cases hmem : lf ∈ seen
      · rw [if_pos hmem] at hx
        exact ih seen x hx
      · rw [if_neg hmem] at hx
        rcases List.mem_cons.mp hx with h | h
        · subst h; rfl
        · exact ih _ x h

/-- Everything `tagStmtsOf` writes is a tag statement. -/
theorem rank_tagStmts (items : List (String × Dataset)) :
    ∀ x ∈ tagStmtsOf items, rank x = 5 := by
  intro x hx
  simp only [tagStmtsOf] at hx
  obtain ⟨t, _, rfl⟩ := List.mem_map.mp hx
  rfl

/-! ## Claim C5 -/

/-- Claim C5: `saveToFile` writes the textual statements in the fixed
order header comment → import-path directive (present exactly when the
output file has a known name) → custom symbol definitions →
linked-dataset declarations → remaining per-dataset data blocks →
tag-assignment statements → widget-tree reconstruction script (the
category rank never decreases along the output and the script is last);
hence every linked-dataset declaration precedes every plain dataset data
block, and every tag statement follows all dataset definitions (both
linked declarations and data blocks); and after `saveToFile` returns the
document's modified flag is false. -/
theorem c5_saveToFile_order (d : Doc) (outName : Option String) :
    (saveToFile d outName).1.Pairwise rankLE ∧
    (saveToFile d outName).1.head? = some Stmt.header ∧
    ((saveToFile d outName).1.any isImportPath = true ↔ outName.isSome = true) ∧
    ((saveToFile d outName).1.Pairwise fun a b =>
      isDataBlock a = true → isLinkDecl b = false) ∧
    ((saveToFile d outName).1.Pairwise fun a b =>
      isTagAssign a = true → isDataBlock b = false ∧ isLinkDecl b = false) ∧
    (saveToFile d outName).1.getLast? = some Stmt.treeScript ∧
    (saveToFile d outName).2.modified = false := by
  simp only [saveToFile, List.append_assoc]
  -- per-segment rank facts
  have h0 : ∀ x ∈ ([Stmt.header] : List Stmt), rank x = 0 := by
    intro x hx
    rw [List.mem_singleton] at hx
    subst hx
    rfl
  have h1 : ∀ x ∈ importPathStmts outName, rank x = 1 := by
    intro x hx
    cases outName with
    | none => simp [importPathStmts] at hx
    | some n =>
      simp only [importPathStmts, List.mem_singleton] at hx
      subst hx
      rfl
  have h2c : ∀ x ∈ d.customs.map Stmt.customDef, rank x = 2 := by
    intro x hx
    obtain ⟨c, _, rfl⟩ := List.mem_map.mp hx
    rfl
  have h3 := rank_linkedDecls (sortedItems d.data) []
  have h4 : ∀ x ∈ (sortedItems d.data).map (fun p => Stmt.dataBlock p.1), rank x = 4 := by
    intro x hx
    obtain ⟨p, _, rfl⟩ := List.mem_map.mp hx
    rfl
  have h5 := rank_tagStmts (sortedItems d.data)
  have h6 : ∀ x ∈ ([Stmt.treeScript] : List Stmt), rank x = 6 := by
    intro x hx
    rw [List.mem_singleton] at hx
    subst hx
    rfl
  -- assemble the sorted concatenation, right to left
  have p6 : ([Stmt.treeScript] : List Stmt).Pairwise rankLE := pairwise_rank_const 6 _ h6
  have p5 := pairwise_rank_glue _ _ 5 (pairwise_rank_const 5 _ h5) p6
    (fun a ha => le_of_eq (h5 a ha)) (fun b hb => by rw [h6 b hb]; omega)
  have b5 := rank_lb_append _ _ 5 (fun a ha => (h5 a ha).ge)
    (fun b hb => by rw [h6 b hb]; omega)
  have p4 := pairwise_rank_glue _ _ 4 (pairwise_rank_const 4 _ h4) p5
    (fun a ha => le_of_eq (h4 a ha)) (fun b hb => le_trans (by omega) (b5 b hb))
  have b4 := rank_lb_append _ _ 4 (fun a ha => (h4 a ha).ge)
    (fun b hb => le_trans (by omega) (b5 b hb))
  have p3 := pairwise_rank_glue _ _ 3 (pairwise_rank_const 3 _ h3) p4
    (fun a ha => le_of_eq (h3 a ha)) (fun b hb => le_trans (by omega) (b4 b hb))
  have b3 := rank_lb_append _ _ 3 (fun a ha => (h3 a ha).ge)
    (fun b hb => le_trans (by omega) (b4 b hb))
  have p2 := pairwise_rank_glue _ _ 2 (pairwise_rank_const 2 _ h2c) p3
    (fun a ha => le_of_eq (h2c a ha)) (fun b hb => le_trans (by omega) (b3 b hb))
  have b2 := rank_lb_append _ _ 2 (fun a ha => (h2c a ha).ge)
    (fun b hb => le_trans (by omega) (b3 b hb))
  have p1 := pairwise_rank_glue _ _ 1 (pairwise_rank_const 1 _ h1) p2
    (fun a ha => le_of_eq (h1 a ha)) (fun b hb => le_trans (by omega) (b2 b hb))
  have b1 := rank_lb_append _ _ 1 (fun a ha => (h1 a ha).ge)
    (fun b hb => le_trans (by omega) (b2 b hb))
  have p0 := pairwise_rank_glue _ _ 0 (pairwise_rank_const 0 _ h0) p1
    (fun a ha => le_of_eq (h0 a ha)) (fun b hb => Nat.zero_le _)
  refine ⟨p0, rfl, ?_, ?_, ?_, ?_, setModified_modified false d⟩
  · -- import-path directive present iff the name is known
    constructor
    · intro h
      rw [List.any_eq_true] at h
      obtain ⟨x, hx, hpx⟩ := h
      have hr1 := rank_eq_of_isImportPath x hpx
      simp only [List.mem_append, List.mem_singleton] at hx
      rcases hx with rfl | hx | hx | hx | hx | hx | rfl
      · simp [rank] at hr1
      · cases outName with
        | none => simp [importPathStmts] at hx
        | some n => rfl
      · have := h2c x hx; omega
      · have := h3 x hx; omega
      · have := h4 x hx; omega
      · have := h5 x hx; omega
      · simp [rank] at hr1
    · intro h
      cases outName with
      | none => simp at h
      | some n =>
        rw [List.any_eq_true]
        refine ⟨Stmt.importPathD n, ?_, rfl⟩
        simp [importPathStmts, List.mem_append]
  · -- linked declarations precede data blocks
    refine List.Pairwise.imp ?_ p0
    intro a b hab hda
    by_contra hc
    rw [Bool.not_eq_false] at hc
    have hra := rank_eq_of_isDataBlock a hda
    have hrb := rank_eq_of_isLinkDecl b hc
    unfold rankLE at hab
    omega
  · -- tag statements follow all dataset definitions
    refine List.Pairwise.imp ?_ p0
    intro a b hab hta
    have hra := rank_eq_of_isTagAssign a hta
    unfold rankLE at hab
    constructor
    · by_contra hc
      rw [Bool.not_eq_false] at hc
      have hrb := rank_eq_of_isDataBlock b hc
      omega
    · by_contra hc
      rw [Bool.not_eq_false] at hc
      have hrb := rank_eq_of_isLinkDecl b hc
      omega
  · -- the tree script is the final statement
    have hconc : [Stmt.header] ++ (importPathStmts outName ++ (d.customs.map Stmt.customDef ++ (linkedDecls (sortedItems d.data) [] ++ ((sortedItems d.data).map (fun p => Stmt.dataBlock p.1) ++ (tagStmtsOf (sortedItems d.data) ++ [Stmt.treeScript])))))
        = ([Stmt.header] ++ importPathStmts outName ++ d.customs.map Stmt.customDef ++ linkedDecls (sortedItems d.data) [] ++ (sortedItems d.data).map (fun p => Stmt.dataBlock p.1) ++ tagStmtsOf (sortedItems d.data)) ++ [Stmt.treeScript] := by
      simp [List.append_assoc]
    rw [hconc, List.getLast?_concat]

/-! ## Plugin import lemmas (claim C8) -/

/-- The translation loop never writes `outnames`. -/
theorem translate_keeps_outnames (preStr sufStr : String) (linked : Bool) :
    ∀ (rs : List PluginResult) (st : ImportState),
      (translateResults preStr sufStr linked rs st).1.outnames = st.outnames := by
  intro rs
  induction rs with
  | nil => intro st; rfl
  | cons r rest ih =>
    intro st
    cases r <;> simp only [translateResults] <;> first
      | rfl
      | exact ih _

/-- An unrecognised record kind is a fatal translation error with the
`RuntimeError` message from the source. -/
theorem translate_unknown_fatal (preStr sufStr : String) (linked : Bool) :
    ∀ (rs : List PluginResult) (st : ImportState), PluginResult.unknown ∈ rs →
      (translateResults preStr sufStr linked rs st).2
        = some "Invalid data set in plugin results" := by
  intro rs
  induction rs with
  | nil => intro st h; simp at h
  | cons r rest ih =>
    intro st h
    cases r with
    | unknown => rfl
    | ds1d n =>
      have hmem : PluginResult.unknown ∈ rest := by
        rcases List.mem_cons.mp h with hc | hc
        · simp at hc
        · exact hc
      simp only [translateResults]
      exact ih _ hmem
    | ds2d n =>
      have hmem : PluginResult.unknown ∈ rest := by
        rcases List.mem_cons.mp h with hc | hc
        · simp at hc
        · exact hc
      simp only [translateResults]
      exact ih _ hmem
    | dsText n =>
      have hmem : PluginResult.unknown ∈ rest := by
        rcases List.mem_cons.mp h with hc | hc
        · simp at hc
        · exact hc
      simp only [translateResults]
      exact ih _ hmem
    | dsDateTime n =>
      have hmem : PluginResult.unknown ∈ rest := by
        rcases List.mem_cons.mp h with hc | hc
        · simp at hc
        · exact hc
      simp only [translateResults]
      exact ih _ hmem
    | constant n v =>
      have hmem : PluginResult.unknown ∈ rest := by
        rcases List.mem_cons.mp h with hc | hc
        · simp at hc
        · exact hc
      simp only [translateResults]
      exact ih _ hmem
    | funcDef n v =>
      have hmem : PluginResult.unknown ∈ rest := by
        rcases List.mem_cons.mp h with hc | hc
        · simp at hc
        · exact hc
      simp only [translateResults]
      exact ih _ hmem

/-- When `doImport` raised, the operation's `outnames` slot still holds
its initial empty value. -/
theorem importFinalState_err_outnames (preStr sufStr : String) (linked : Bool)
    (outcome : PluginOutcome) (m : String)
    (hm : (importResults preStr sufStr linked outcome).2 = some m) :
    (importFinalState preStr sufStr linked outcome).outnames = [] := by
  simp only [importFinalState]
  rw [hm]
  cases outcome with
  | failure msg => rfl
  | success rs =>
    simp only [importResults]
    exact translate_keeps_outnames preStr sufStr linked rs emptyImportState

/-! ## Claim C8 -/

/-- Claim C8: for every exception raised while applying the
plugin-import operation (including the fatal `RuntimeError` raised when a
plugin result record is of an unrecognised kind), `ImportFilePlugin`
catches the exception, appends the error message and the full traceback
to the document log, does not propagate the exception to its caller
(the equality below exhibits its normal return value), and still
returns the operation's lists of imported dataset names and customs,
which are empty when the failure aborted the whole plugin call. -/
theorem c8_import_plugin_catches (plugin preStr sufStr : String) (linked : Bool)
    (outcome : PluginOutcome) (d : Doc) :
    (∀ m, (importResults preStr sufStr linked outcome).2 = some m →
      importFilePlugin plugin preStr sufStr linked outcome d
        = (logMsg (logMsg d ("Error in plugin " ++ plugin)) (tracebackOf m),
           (importFinalState preStr sufStr linked outcome).outnames,
           (importFinalState preStr sufStr linked outcome).outcustoms) ∧
      (importFinalState preStr sufStr linked outcome).outnames = []) ∧
    (∀ msg, outcome = PluginOutcome.failure msg →
      (importFinalState preStr sufStr linked outcome).outnames = [] ∧
      (importFinalState preStr sufStr linked outcome).outcustoms = []) ∧
    (∀ rs, outcome = PluginOutcome.success rs → PluginResult.unknown ∈ rs →
      (importResults preStr sufStr linked outcome).2
        = some "Invalid data set in plugin results") := by
  refine ⟨?_, ?_, ?_⟩
  · intro m hm
    have hdo : opDo (Op.importPlugin preStr sufStr linked outcome) (suspendUpdates d)
        = (suspendUpdates d, false) := by
      simp only [opDo]
      rcases hres : importResults preStr sufStr linked outcome with ⟨st, err⟩
      have herr : err = some m := by rw [hres] at hm; exact hm
      subst herr
      rfl
    have hen : enableUpdates (suspendUpdates d) = some d := by
      simp only [enableUpdates, suspendUpdates]
      split
      next hcond => exact absurd rfl hcond.2
      next hcond => rfl
    have happly : applyOperation (Op.importPlugin preStr sufStr linked outcome) d
        = (d, false) := by
      simp [applyOperation, hdo, hen]
    constructor
    · simp [importFilePlugin, happly, hm]
    · exact importFinalState_err_outnames preStr sufStr linked outcome m hm
  · intro msg hout
    subst hout
    exact ⟨rfl, rfl⟩
  · intro rs hout hmem
    subst hout
    simp only [importResults]
    exact translate_unknown_fatal preStr sufStr linked rs emptyImportState hmem

/-- Witness for C8 at a concrete unrecognised-record failure. -/
theorem c8_witness :
    (importResults "" "" false (PluginOutcome.success [PluginResult.unknown])).2
      = some "Invalid data set in plugin results" ∧
    importFilePlugin "badplugin" "" "" false
        (PluginOutcome.success [PluginResult.unknown]) emptyDoc
      = (logMsg (logMsg emptyDoc ("Error in plugin " ++ "badplugin"))
           (tracebackOf "Invalid data set in plugin results"),
         (importFinalState "" "" false (PluginOutcome.success [PluginResult.unknown])).outnames,
         (importFinalState "" "" false (PluginOutcome.success [PluginResult.unknown])).outcustoms) :=
  ⟨by decide,
   ((c8_import_plugin_catches "badplugin" "" "" false
      (PluginOutcome.success [PluginResult.unknown]) emptyDoc).1
      "Invalid data set in plugin results" (by decide)).1⟩

/-! ## Setting-path resolution lemmas (claim C10) -/

/-- A matched child in a proper widget forest is a proper widget tree. -/
theorem findChildL_wtree : ∀ (cs : VList) (p : String) (c : VNode),
    isWForest cs = true → findChildL cs p = some c → isWTree c = true
  | .nil, p, c, _, hf => by simp [findChildL] at hf
  | .cons w rest, p, c, h, hf => by
    simp only [isWForest, Bool.and_eq_true] at h
    simp only [findChildL] at hf
    by_cases hp : p = nameOf w
    · rw [if_pos hp] at hf
      cases hf
      exact h.1
    · rw [if_neg hp] at hf
      exact findChildL_wtree rest p c h.2 hf

/-- In a proper widget tree the children form a proper forest and the
settings attribute is a proper settings group. -/
theorem wtree_parts (w : VNode) (h : isWTree w = true) :
    isWForest (childrenOf w) = true ∧ isSGroupTree (settingsOf w) = true := by
  cases w with
  | widget n cs st =>
    simp only [isWTree, Bool.and_eq_true] at h
    exact ⟨h.1, h.2⟩
  | settingsGrp n sl => simp [isWTree] at h
  | setting n => simp [isWTree] at h

/-- The widget-descent loop stays inside proper widget trees. -/
theorem descendW_wtree : ∀ (parts : List String) (w : VNode),
    isWTree w = true → isWTree (descendW w parts).1 = true := by
  intro parts
  induction parts with
  | nil => intro w h; exact h
  | cons p rest ih =>
    intro w h
    cases hf : findChildL (childrenOf w) p with
    | none => simp only [descendW, hf]; exact h
    | some c =>
      simp only [descendW, hf]
      exact ih c (findChildL_wtree (childrenOf w) p c (wtree_parts w h).1 hf)

/-! ## Claim C10 -/

/-- Claim C10: `resolveFullSettingPath` requires the given path to end
in at least one segment that is not the name of a widget child — for
every proper widget tree and every path all of whose non-empty segments
match widget children along the tree (so the widget-descent loop
consumes every part; the bare root path `/` included), the function
fails with the out-of-range access `parts[0]` on the emptied segment
list, before reaching the documented assertion. -/
theorem c10_resolveFullSettingPath_indexerror (t : VNode) (path : String)
    (hw : isWTree t = true)
    (hall : (descendW t ((pySplitSlash path).filter (fun x => x ≠ ""))).2 = []) :
    resolveFullSettingPath t path = Except.error RErr.indexErr := by
  simp only [resolveFullSettingPath]
  have hw1 : isWTree (descendW t ((pySplitSlash path).filter (fun x => x ≠ ""))).1 = true :=
    descendW_wtree _ t hw
  have hsg := (wtree_parts _ hw1).2
  cases hs : settingsOf (descendW t ((pySplitSlash path).filter (fun x => x ≠ ""))).1 with
  | settingsGrp n sl =>
    rw [hall]
    rfl
  | widget n cs st =>
    rw [hs] at hsg
    simp [isSGroupTree] at hsg
  | setting n =>
    rw [hs] at hsg
    simp [isSGroupTree] at hsg

/-- Witness for C10 at the bare root path on a concrete tree. -/
theorem c10_witness :
    isWTree sampleTree = true ∧
    (descendW sampleTree ((pySplitSlash "/").filter (fun x => x ≠ ""))).2 = [] ∧
    resolveFullSettingPath sampleTree "/" = Except.error RErr.indexErr :=
  ⟨by decide, by decide,
   c10_resolveFullSettingPath_indexerror sampleTree "/" (by decide) (by decide)⟩

/-! ## Tree traversal lemmas (claim C7) -/

/-- Sorting the entries does not change the fuel bound. -/
theorem mP_sortPairs (l : List (String × VNode)) : mP (sortPairs l) = mP l :=
  List.Perm.sum_eq (List.Perm.map _ (List.perm_insertionSort _ l))

/-- Sorting the entries does not change the node count. -/
theorem countP_sortPairs (l : List (String × VNode)) : countP (sortPairs l) = countP l :=
  List.Perm.sum_eq (List.Perm.map _ (List.perm_insertionSort _ l))

/-- The fuel bound of the entries list is below the group's bound. -/
theorem mP_toPairs : ∀ sl : SList, mP (toPairs sl) = mS sl
  | .nil => rfl
  | .cons k sn rest => by
    simp only [toPairs, mP, List.map_cons, List.sum_cons, mS]
    have := mP_toPairs rest
    simp only [mP] at this
    omega

/-- The node count of the entries list is the group's entry count. -/
theorem countP_toPairs : ∀ sl : SList, countP (toPairs sl) = countS sl
  | .nil => rfl
  | .cons k sn rest => by
    simp only [toPairs, countP, List.map_cons, List.sum_cons, countS]
    have := countP_toPairs rest
    simp only [countP] at this
    omega

/-- Every node weighs at least one unit of fuel. -/
theorem mN_pos (t : VNode) : 1 ≤ mN t := by
  cases t <;> simp [mN] <;> omega

/-- Zero fuel bounds only the empty child list. -/
theorem mL_zero (l : VList) (h : mL l ≤ 0) : l = VList.nil := by
  cases l with
  | nil => rfl
  | cons w rest => simp [mL] at h

/-- Zero fuel bounds only the empty entries list. -/
theorem mP_zero (pl : List (String × VNode)) (h : mP pl ≤ 0) : pl = [] := by
  cases pl with
  | nil => rfl
  | cons p rest =>
    simp only [mP, List.map_cons, List.sum_cons] at h
    omega

/-- `kindFilter` over a visit. -/
theorem kindFilter_cons (kinds : List NodeKind) (pos : List Nat) (path : String)
    (t : VNode) (vs : List (List Nat × String × VNode)) :
    kindFilter kinds ((pos, path, t) :: vs)
      = (if kindOf t ∈ kinds then [(path, t)] else []) ++ kindFilter kinds vs := by
  simp only [kindFilter, List.filterMap_cons]
  by_cases hk : kindOf t ∈ kinds
  · rw [if_pos hk, if_pos hk]
    rfl
  · rw [if_neg hk, if_neg hk]
    rfl

/-- `kindFilter` distributes over append. -/
theorem kindFilter_append (kinds : List NodeKind)
    (a b : List (List Nat × String × VNode)) :
    kindFilter kinds (a ++ b) = kindFilter kinds a ++ kindFilter kinds b :=
  List.filterMap_append a b _

/-- `walkNodes` is exactly the reference traversal restricted to the
requested kinds (for every fuel, hence for the canonical fuel). -/
theorem walk_filter (fuel : Nat) :
    (∀ kinds t path pos,
      walkNodesF fuel kinds t path = kindFilter kinds (walkAllF fuel t path pos)) ∧
    (∀ kinds l q pos i,
      walkChildrenF fuel kinds l q = kindFilter kinds (walkAllLF fuel l q pos i)) ∧
    (∀ kinds pl path pos i,
      walkDictF fuel kinds pl path = kindFilter kinds (walkAllDF fuel pl path pos i)) := by
  induction fuel with
  | zero => exact ⟨fun _ _ _ _ => rfl, fun _ _ _ _ _ => rfl, fun _ _ _ _ _ => rfl⟩
  | succ fuel ih =>
    obtain ⟨ihN, ihL, ihD⟩ := ih
    refine ⟨?_, ?_, ?_⟩
    · intro kinds t path pos
      cases t with
      | widget n cs st =>
        simp only [walkNodesF, walkAllF]
        rw [kindFilter_cons, kindFilter_append]
        rw [ihL kinds cs _ pos 0, ihN kinds st _ (pos ++ [lenL cs])]
      | settingsGrp n sl =>
        simp only [walkNodesF, walkAllF]
        rw [kindFilter_cons]
        rw [ihD kinds _ path pos 0]
      | setting n =>
        simp only [walkNodesF, walkAllF]
        rw [kindFilter_cons]
        rfl
    · intro kinds l q pos i
      cases l with
      | nil => rfl
      | cons w rest =>
        simp only [walkChildrenF, walkAllLF]
        rw [kindFilter_append]
        rw [ihN kinds w _ (pos ++ [i]), ihL kinds rest q pos (i + 1)]
    · intro kinds pl path pos i
      cases pl with
      | nil => rfl
      | cons p rest =>
        simp only [walkDictF, walkAllDF]
        rw [kindFilter_append]
        rw [ihN kinds p.2 _ (pos ++ [i]), ihD kinds rest path pos (i + 1)]

/-- A list lexicographically precedes any of its strict extensions. -/
theorem lex_append_cons (q : List Nat) (x : Nat) (r : List Nat) :
    List.Lex (· < ·) q (q ++ x :: r) := by
  induction q with
  | nil => exact List.Lex.nil
  | cons a q' ih => exact List.Lex.cons ih

/-- Positions branching at a smaller index are lexicographically
smaller. -/
theorem lex_append_lt (q : List Nat) (i j : Nat) (r s : List Nat) (h : i < j) :
    List.Lex (· < ·) (q ++ i :: r) (q ++ j :: s) := by
  induction q with
  | nil => exact List.Lex.rel h
  | cons a q' ih => exact List.Lex.cons ih

/-- The reference traversal visits positions in strictly increasing
lexicographic order (so each tree position is visited at most once, a
widget precedes everything beneath it, and all child subtrees precede
the widget's settings subtree); every visit under a subtree call at
`pos` extends `pos`, and list/entry calls at start index `i` visit only
branch indices `j` with `i ≤ j < i + length`. -/
theorem walkAll_pos (fuel : Nat) :
    (∀ t path pos, (∀ v ∈ walkAllF fuel t path pos, pos <+: v.1) ∧
      (walkAllF fuel t path pos).Pairwise posLt) ∧
    (∀ l q pos i, (∀ v ∈ walkAllLF fuel l q pos i,
        ∃ j r, i ≤ j ∧ j < i + lenL l ∧ v.1 = pos ++ j :: r) ∧
      (walkAllLF fuel l q pos i).Pairwise posLt) ∧
    (∀ pl path pos i, (∀ v ∈ walkAllDF fuel pl path pos i,
        ∃ j r, i ≤ j ∧ j < i + pl.length ∧ v.1 = pos ++ j :: r) ∧
      (walkAllDF fuel pl path pos i).Pairwise posLt) := by
  induction fuel with
  | zero =>
    refine ⟨fun t path pos => ⟨?_, ?_⟩, fun l q pos i => ⟨?_, ?_⟩,
      fun pl path pos i => ⟨?_, ?_⟩⟩ <;>
      simp [walkAllF, walkAllLF, walkAllDF]
  | succ fuel ih =>
    obtain ⟨ihN, ihL, ihD⟩ := ih
    refine ⟨?_, ?_, ?_⟩
    · intro t path pos
      cases t with
      | widget n cs st =>
        simp only [walkAllF]
        constructor
        · intro v hv
          rcases List.mem_cons.mp hv with rfl | hv
          · exact List.prefix_refl _
          · rcases List.mem_append.mp hv with hv | hv
            · obtain ⟨j, r, _, _, heq⟩ := (ihL cs _ pos 0).1 v hv
              rw [heq]
              exact ⟨j :: r, rfl⟩
            · have hpre := (ihN st _ (pos ++ [lenL cs])).1 v hv
              exact List.IsPrefix.trans ⟨[lenL cs], rfl⟩ hpre
        · refine List.Pairwise.cons ?_ ?_
          · intro v hv
            rcases List.mem_append.mp hv with hv | hv
            · obtain ⟨j, r, _, _, heq⟩ := (ihL cs _ pos 0).1 v hv
              unfold posLt
              rw [heq]
              exact lex_append_cons pos j r
            · obtain ⟨r, hr⟩ := (ihN st _ (pos ++ [lenL cs])).1 v hv
              unfold posLt
              rw [← hr]
              have hsh : pos ++ [lenL cs] ++ r = pos ++ lenL cs :: r := by simp
              rw [hsh]
              exact lex_append_cons pos (lenL cs) r
          · refine List.pairwise_append.mpr ⟨(ihL cs _ pos 0).2, (ihN st _ _).2, ?_⟩
            intro a ha b hb
            obtain ⟨j, r, _, hj, heqa⟩ := (ihL cs _ pos 0).1 a ha
            obtain ⟨rb, hrb⟩ := (ihN st _ (pos ++ [lenL cs])).1 b hb
            unfold posLt
            rw [heqa, ← hrb]
            have hsh : pos ++ [lenL cs] ++ rb = pos ++ lenL cs :: rb := by simp
            rw [hsh]
            exact lex_append_lt pos j (lenL cs) r rb (by omega)
      | settingsGrp n sl =>
        simp only [walkAllF]
        constructor
        · intro v hv
          rcases List.mem_cons.mp hv with rfl | hv
          · exact List.prefix_refl _
          · obtain ⟨j, r, _, _, heq⟩ := (ihD _ path pos 0).1 v hv
            rw [heq]
            exact ⟨j :: r, rfl⟩
        · refine List.Pairwise.cons ?_ (ihD _ path pos 0).2
          intro v hv
          obtain ⟨j, r, _, _, heq⟩ := (ihD _ path pos 0).1 v hv
          unfold posLt
          rw [heq]
          exact lex_append_cons pos j r
      | setting n =>
        simp only [walkAllF]
        constructor
        · intro v hv
          rcases List.mem_cons.mp hv with rfl | hv
          · exact List.prefix_refl _
          · simp at hv
        · simp [posLt]
    · intro l q pos i
      cases l with
      | nil => simp [walkAllLF]
      | cons w rest =>
        simp only [walkAllLF]
        constructor
        · intro v hv
          rcases List.mem_append.mp hv with hv | hv
          · obtain ⟨r, hr⟩ := (ihN w _ (pos ++ [i])).1 v hv
            refine ⟨i, r, le_refl i, ?_, ?_⟩
            · simp only [lenL]
              omega
            · rw [← hr]
              simp
          · obtain ⟨j, r, hj1, hj2, heq⟩ := (ihL rest q pos (i + 1)).1 v hv
            refine ⟨j, r, by omega, ?_, heq⟩
            simp only [lenL]
            omega
        · refine List.pairwise_append.mpr ⟨(ihN w _ _).2, (ihL rest q pos (i + 1)).2, ?_⟩
          intro a ha b hb
          obtain ⟨ra, hra⟩ := (ihN w _ (pos ++ [i])).1 a ha
          obtain ⟨j, rb, hj1, _, heqb⟩ := (ihL rest q pos (i + 1)).1 b hb
          unfold posLt
          rw [heqb, ← hra]
          have hsh : pos ++ [i] ++ ra = pos ++ i :: ra := by simp
          rw [hsh]
          exact lex_append_lt pos i j ra rb (by omega)
    · intro pl path pos i
      cases pl with
      | nil => simp [walkAllDF]
      | cons p rest =>
        simp only [walkAllDF]
        constructor
        · intro v hv
          rcases List.mem_append.mp hv with hv | hv
          · obtain ⟨r, hr⟩ := (ihN p.2 _ (pos ++ [i])).1 v hv
            refine ⟨i, r, le_refl i, ?_, ?_⟩
            · simp only [List.length_cons]
              omega
            · rw [← hr]
              simp
          · obtain ⟨j, r, hj1, hj2, heq⟩ := (ihD rest path pos (i + 1)).1 v hv
            refine ⟨j, r, by omega, ?_, heq⟩
            simp only [List.length_cons]
            omega
        · refine List.pairwise_append.mpr ⟨(ihN p.2 _ _).2, (ihD rest path pos (i + 1)).2, ?_⟩
          intro a ha b hb
          obtain ⟨ra, hra⟩ := (ihN p.2 _ (pos ++ [i])).1 a ha
          obtain ⟨j, rb, hj1, _, heqb⟩ := (ihD rest path pos (i + 1)).1 b hb
          unfold posLt
          rw [heqb, ← hra]
          have hsh : pos ++ [i] ++ ra = pos ++ i :: ra := by simp
          rw [hsh]
          exact lex_append_lt pos i j ra rb (by omega)

/-- With enough fuel (the structural size suffices), the reference
traversal visits exactly as many entries as the tree has nodes: together
with the strict ordering of `walkAll_pos` (distinct positions), every
node of the tree is visited exactly once. -/
theorem walkAll_length (fuel : Nat) :
    (∀ t path pos, mN t ≤ fuel →
      (walkAllF fuel t path pos).length = countN t) ∧
    (∀ l q pos i, mL l ≤ fuel →
      (walkAllLF fuel l q pos i).length = countL l) ∧
    (∀ pl path pos i, mP pl ≤ fuel →
      (walkAllDF fuel pl path pos i).length = countP pl) := by
  induction fuel with
  | zero =>
    refine ⟨fun t path pos h => absurd h ?_, fun l q pos i h => ?_,
      fun pl path pos i h => ?_⟩
    · have := mN_pos t
      omega
    · rw [mL_zero l h]
      simp [walkAllLF, countL]
    · rw [mP_zero pl h]
      simp [walkAllDF, countP]
  | succ fuel ih =>
    obtain ⟨ihN, ihL, ihD⟩ := ih
    refine ⟨?_, ?_, ?_⟩
    · intro t path pos h
      cases t with
      | widget n cs st =>
        simp only [mN] at h
        simp only [walkAllF, countN, List.length_cons, List.length_append]
        rw [ihL cs _ pos 0 (by omega), ihN st _ _ (by omega)]
        omega
      | settingsGrp n sl =>
        simp only [mN] at h
        simp only [walkAllF, countN, List.length_cons]
        rw [ihD _ path pos 0 (by rw [mP_sortPairs, mP_toPairs]; omega)]
        rw [countP_sortPairs, countP_toPairs]
        omega
      | setting n =>
        simp [walkAllF, countN]
    · intro l q pos i h
      cases l with
      | nil => simp [walkAllLF, countL]
      | cons w rest =>
        simp only [mL] at h
        simp only [walkAllLF, countL, List.length_append]
        rw [ihN w _ _ (by omega), ihL rest q pos (i + 1) (by omega)]
    · intro pl path pos i h
      cases pl with
      | nil => simp [walkAllDF, countP]
      | cons p rest =>
        simp only [mP, List.map_cons, List.sum_cons] at h
        simp only [walkAllDF, List.length_append]
        rw [ihN p.2 _ _ (by omega), ihD rest path pos (i + 1) (by simp only [mP]; omega)]
        simp [countP]

/-- String concatenation concatenates the character lists. -/
theorem sdata_append (s t : String) : (s ++ t).data = s.data ++ t.data := by
  cases s
  cases t
  rfl

/-- Character list of a slash-joined segment. -/
theorem data3 (q nm : String) :
    (q ++ "/" ++ nm).data = q.data ++ '/' :: nm.data := by
  rw [sdata_append, sdata_append]
  simp

/-- Strings with equal character lists are equal. -/
theorem string_eq_of_data {s t : String} (h : s.data = t.data) : s = t := by
  cases s
  cases t
  exact congrArg String.mk h

/-- Slash-joining a good segment onto a double-slash-free path other
than the bare root `/` yields a double-slash-free path other than `/`. -/
theorem dslashFree_seg (q nm : String) (hq : dslashFree q = true) (hq2 : q ≠ "/")
    (hnm : goodName nm = true) :
    dslashFree (q ++ "/" ++ nm) = true ∧ q ++ "/" ++ nm ≠ "/" := by
  have hd := data3 q nm
  unfold goodName at hnm
  cases hne : nm.data with
  | nil =>
    rw [hne] at hnm
    simp at hnm
  | cons c cs =>
    rw [hne] at hnm
    have hnm2 : (c != '/') = true := hnm
    have hc : (c == '/') = false := by
      cases hcc : c == '/' with
      | false => rfl
      | true =>
        have hce : c = '/' := by simpa using hcc
        rw [hce] at hnm2
        simp at hnm2
    rw [hne] at hd
    constructor
    · unfold dslashFree
      rw [hd]
      cases hqd : q.data with
      | nil =>
        simp only [List.nil_append]
        simp [hc]
      | cons a as =>
        cases as with
        | nil =>
          have ha : (a == '/') = false := by
            cases haa : a == '/' with
            | false => rfl
            | true =>
              exfalso
              apply hq2
              apply string_eq_of_data
              rw [hqd]
              have hae : a = '/' := by simpa using haa
              rw [hae]
          simp only [List.cons_append, List.nil_append]
          simp [ha]
        | cons b bs =>
          unfold dslashFree at hq
          rw [hqd] at hq
          simp only [List.cons_append]
          exact hq
    · intro he
      have hdd : (q ++ "/" ++ nm).data = ("/" : String).data := by rw [he]
      rw [hd] at hdd
      have hlen := congrArg List.length hdd
      simp at hlen
      omega

/-- The name of a node with good names is a good segment. -/
theorem goodName_nameOf (t : VNode) (h : goodNames t = true) :
    goodName (nameOf t) = true := by
  cases t with
  | widget n cs st =>
    simp only [goodNames, Bool.and_eq_true] at h
    exact h.1.1
  | settingsGrp n sl =>
    simp only [goodNames, Bool.and_eq_true] at h
    exact h.1
  | setting n => exact h

/-- Every entry node of a good-named `setdict` has good names. -/
theorem goodNames_toPairs : ∀ sl : SList, goodNamesS sl = true →
    ∀ p ∈ toPairs sl, goodNames p.2 = true
  | .nil => by
    intro _ p hp
    simp [toPairs] at hp
  | .cons k sn rest => by
    intro h p hp
    simp only [goodNamesS, Bool.and_eq_true] at h
    simp only [toPairs, List.mem_cons] at hp
    rcases hp with rfl | hp
    · exact h.1
    · exact goodNames_toPairs rest h.2 p hp

/-- When every node name is a good segment, every path reported by the
reference traversal is double-slash-free, provided the start path is
either the bare root `/` at a widget (which the walk collapses) or
itself double-slash-free and distinct from `/`. -/
theorem walk_paths (fuel : Nat) :
    (∀ t path pos, goodNames t = true →
      ((path = "/" ∧ kindOf t = NodeKind.widget) ∨
        (dslashFree path = true ∧ path ≠ "/")) →
      ∀ v ∈ walkAllF fuel t path pos, dslashFree v.2.1 = true) ∧
    (∀ l q pos i, goodNamesL l = true → dslashFree q = true → q ≠ "/" →
      ∀ v ∈ walkAllLF fuel l q pos i, dslashFree v.2.1 = true) ∧
    (∀ pl path pos i, (∀ p ∈ pl, goodNames p.2 = true) →
      dslashFree path = true → path ≠ "/" →
      ∀ v ∈ walkAllDF fuel pl path pos i, dslashFree v.2.1 = true) := by
  induction fuel with
  | zero =>
    refine ⟨fun t path pos _ _ v hv => ?_, fun l q pos i _ _ _ v hv => ?_,
      fun pl path pos i _ _ _ v hv => ?_⟩ <;> simp [walkAllF, walkAllLF, walkAllDF] at hv
  | succ fuel ih =>
    obtain ⟨ihN, ihL, ihD⟩ := ih
    refine ⟨?_, ?_, ?_⟩
    · intro t path pos hg hp v hv
      have hdpath : dslashFree path = true := by
        rcases hp with ⟨rfl, _⟩ | ⟨h, _⟩
        · rfl
        · exact h
      cases t with
      | widget n cs st =>
        simp only [goodNames, Bool.and_eq_true] at hg
        simp only [walkAllF, List.mem_cons] at hv
        rcases hv with rfl | hv
        · exact hdpath
        · have hq : dslashFree (if path = "/" then "" else path) = true ∧
              (if path = "/" then "" else path) ≠ "/" := by
            by_cases hpq : path = "/"
            · rw [if_pos hpq]
              exact ⟨rfl, by intro h; exact absurd (congrArg String.data h) (by simp)⟩
            · rw [if_neg hpq]
              rcases hp with ⟨h1, _⟩ | ⟨h1, h2⟩
              · exact absurd h1 hpq
              · exact ⟨h1, h2⟩
          rcases List.mem_append.mp hv with hv | hv
          · exact ihL cs _ pos 0 hg.1.2 hq.1 hq.2 v hv
          · exact ihN st _ _ hg.2 (Or.inr hq) v hv
      | settingsGrp n sl =>
        have hp2 : dslashFree path = true ∧ path ≠ "/" := by
          rcases hp with ⟨_, hk⟩ | h
          · simp [kindOf] at hk
          · exact h
        simp only [goodNames, Bool.and_eq_true] at hg
        simp only [walkAllF, List.mem_cons] at hv
        rcases hv with rfl | hv
        · exact hdpath
        · refine ihD _ path pos 0 ?_ hp2.1 hp2.2 v hv
          intro p hpmem
          have hpm : p ∈ toPairs sl := by
            simp only [sortPairs] at hpmem
            exact (List.perm_insertionSort (fun a b => a.1 ≤ b.1) (toPairs sl)).mem_iff.mp hpmem
          exact goodNames_toPairs sl hg.2 p hpm
      | setting n =>
        simp only [walkAllF, List.mem_cons] at hv
        rcases hv with rfl | hv
        · exact hdpath
        · simp at hv
    · intro l q pos i hg hd hne v hv
      cases l with
      | nil => simp [walkAllLF] at hv
      | cons w rest =>
        simp only [goodNamesL, Bool.and_eq_true] at hg
        simp only [walkAllLF] at hv
        rcases List.mem_append.mp hv with hv | hv
        · have hseg := dslashFree_seg q (nameOf w) hd hne (goodName_nameOf w hg.1)
          exact ihN w _ _ hg.1 (Or.inr hseg) v hv
        · exact ihL rest q pos (i + 1) hg.2 hd hne v hv
    · intro pl path pos i hg hd hne v hv
      cases pl with
      | nil => simp [walkAllDF] at hv
      | cons p rest =>
        simp only [walkAllDF] at hv
        rcases List.mem_append.mp hv with hv | hv
        · have hgp : goodNames p.2 = true := hg p (List.mem_cons_self p rest)
          have hseg := dslashFree_seg path (nameOf p.2) hd hne (goodName_nameOf p.2 hgp)
          exact ihN p.2 _ _ hgp (Or.inr hseg) v hv
        · exact ihD rest path pos (i + 1)
            (fun x hx => hg x (List.mem_cons_of_mem p hx)) hd hne v hv

/-- C7: on a widget tree whose names are usable path segments, started
at the root path `/` as the document does, `walkNodes` equals the
kind-filter of the reference traversal `walkAll`, so it reports exactly
the nodes whose kind is requested, in traversal order.  The reference
traversal tags each visit with the node's canonical tree position and
(i) has exactly one entry per node of the tree (`length = countN`),
(ii) visits positions in strictly increasing lexicographic order
(`Pairwise posLt`), all extending the root position — hence every node
is visited exactly once, a widget (a strict prefix position) is visited
before every node beneath it, and a widget's child subtrees (branches
`0 .. children-1`) are all visited before its settings subtree (branch
`children`); and (iii) every reported path — in particular every path
`walkNodes` reports — is free of a leading double slash, the root `/`
having been collapsed. -/
theorem c7_walkNodes (kinds : List NodeKind) (t : VNode)
    (hw : kindOf t = NodeKind.widget) (hg : goodNames t = true) :
    walkNodes kinds t "/" = kindFilter kinds (walkAll t "/" []) ∧
    (walkAll t "/" []).length = countN t ∧
    (∀ v ∈ walkAll t "/" [], [] <+: v.1) ∧
    (walkAll t "/" []).Pairwise posLt ∧
    (∀ v ∈ walkAll t "/" [], dslashFree v.2.1 = true) :=
  ⟨(walk_filter (mN t)).1 kinds t "/" [],
   (walkAll_length (mN t)).1 t "/" [] (le_refl _),
   ((walkAll_pos (mN t)).1 t "/" []).1,
   ((walkAll_pos (mN t)).1 t "/" []).2,
   (walk_paths (mN t)).1 t "/" [] hg (Or.inl ⟨rfl, hw⟩)⟩

/-- C7 witness: the sample document tree satisfies the hypotheses, and
the theorem applies to it. -/
theorem c7_witness :
    walkNodes [NodeKind.setting] sampleTree "/" =
      kindFilter [NodeKind.setting] (walkAll sampleTree "/" []) ∧
    (walkAll sampleTree "/" []).length = countN sampleTree ∧
    (∀ v ∈ walkAll sampleTree "/" [], [] <+: v.1) ∧
    (walkAll sampleTree "/" []).Pairwise posLt ∧
    (∀ v ∈ walkAll sampleTree "/" [], dslashFree v.2.1 = true) :=
  c7_walkNodes [NodeKind.setting] sampleTree rfl (by decide)

end ORModel
